import Mathlib

/-! Boggle solver: a shallow embedding of `src/main.cpp`.

The C++ program keeps a dictionary (`Dictionary`) as two `std::set<std::string>` and a
game (`BoggleGame`) whose `FindWords` runs a prefix-pruned depth-first search over the
board, then sorts, de-duplicates and scores the words found.

Modelling decisions.

* `std::string` is a list of characters (`Str`); `size()`/`length()` is `List.length`.
* `std::set<std::string>` is a list used only through membership; `insert` is
  `List.insert`, which leaves the list alone when the element is already there.
* `int` values are `Int`.  A board is a `std::vector` holding `size * size` strings, so
  every `int` the search computes is bounded by the number of cells of a board that
  exists in memory; wrap-around is not modelled.
* `std::vector::operator[]` outside the vector, `std::string::erase` past the end and a
  division by zero are faults: the functions that can run into them return
  `Except Fault _`.
* The recursion of `FindWordsUtil` is bounded by a fuel argument; running out of fuel is
  the separate fault `Fault.outOfFuel`, so that it can be told apart from the faults of
  the program.
* `std::sort` is library code.  It is taken through its contract (`StdSort`): the result
  is a permutation of the input in which no element is followed by one that the
  comparator puts strictly before it.  Where the order of entries of equal length matters,
  the routine of libstdc++ is used, modelled function by function (`gnuSortList`) and
  shown to meet the contract (`gnuSort`).
* What `CheckAndLogLegalWord` writes to `std::cout` is the list of the items inserted
  into the stream, in order.
* The notions of the specification that the code is compared with (`keepFirstOccurrences`,
  `specScoreTable`, `specStep`, `specSearch`, ...) are separate definitions that follow
  the wording of the specification.
-/

namespace Boggle

/-- A `std::string`: a sequence of characters. -/
abbrev Str := List Char

/-- The `enum ERR { OK = 0, NOT_OK = 1 }`. -/
inductive ERR where
  | OK
  | NOT_OK
  deriving DecidableEq, Repr

/-- What can go wrong while the search runs. -/
inductive Fault where
  | indexOutOfRange
  | eraseOutOfRange
  | divisionByZero
  | outOfFuel
  deriving DecidableEq, Repr

/-! ## Dictionary -/

/-- The class `Dictionary`: the set of words and the set of their prefixes. -/
structure Dictionary where
  m_dictionary : List Str
  m_crazyDict : List Str
  deriving DecidableEq, Repr

/-- A default-constructed `Dictionary`: both sets empty. -/
def Dictionary.fresh : Dictionary := ⟨[], []⟩

/-- The inner loop of `LoadDictionary`, `for (int i = 1; i <= line.size(); ++i)`: the
prefix `line.substr(0, i)` is inserted when `find` does not see it.  The list
`List.range line.length` holds `i - 1` for the successive values of `i`. -/
def insertPrefixes (crazy : List Str) (line : Str) : List Str :=
  (List.range line.length).foldl
    (fun cd k => if line.take (k + 1) ∈ cd then cd else cd.insert (line.take (k + 1))) crazy

/-- One iteration of `while (std::getline(infile, line))`. -/
def loadLine (d : Dictionary) (line : Str) : Dictionary :=
  { m_dictionary := d.m_dictionary.insert line
    m_crazyDict := insertPrefixes d.m_crazyDict line }

/-- The function `Dictionary::LoadDictionary`.  The file is `some lines` when it can be
opened (its lines, terminators removed) and `none` when it cannot: `std::getline` fails at
once on a stream that is not open, so the loop body never runs.  The stream state is never
tested and the only `return` is `return ERR::OK`. -/
def Dictionary.LoadDictionary (d : Dictionary) (file : Option (List Str)) : ERR × Dictionary :=
  let lines := match file with
    | some ls => ls
    | none => []
  let d1 := lines.foldl loadLine d
  (ERR.OK, { d1 with m_crazyDict := d1.m_crazyDict.insert [] })

/-- The function `Dictionary::IsWordValid`. -/
def Dictionary.IsWordValid (d : Dictionary) (word : Str) : Bool :=
  decide (word ∈ d.m_dictionary)

/-- The function `Dictionary::CanBeWord`. -/
def Dictionary.CanBeWord (d : Dictionary) (str : Str) : Bool :=
  decide (str ∈ d.m_crazyDict)

/-! ## The game -/

/-- The class `BoggleGame`. -/
structure BoggleGame where
  m_dict : Dictionary
  m_squareSize : Int
  m_minWordSize : Int
  m_totalScore : Int
  m_board : List Str
  m_visited : List Bool
  m_words : List Str
  m_wordScores : List Int
  deriving DecidableEq, Repr

/-- The constructor `BoggleGame::BoggleGame`; the result of `LoadDictionary` is dropped,
as in the source.  Printing the board is left out. -/
def BoggleGame.new (size wordSize : Int) (dictFile : Option (List Str))
    (boardVec : List Str) : BoggleGame :=
  { m_dict := (Dictionary.fresh.LoadDictionary dictFile).2
    m_squareSize := size
    m_minWordSize := wordSize
    m_totalScore := 0
    m_board := boardVec
    m_visited := List.replicate boardVec.length false
    m_words := []
    m_wordScores := [] }

/-- Reading `v[i]` of a `std::vector` with an `int` index. -/
def vecAt {α : Type} (v : List α) (i : Int) : Except Fault α :=
  if 0 ≤ i then
    match v[i.toNat]? with
    | some x => .ok x
    | none => .error Fault.indexOutOfRange
  else .error Fault.indexOutOfRange

/-- Writing `v[i] = x` of a `std::vector` with an `int` index. -/
def vecSet {α : Type} (v : List α) (i : Int) (x : α) : Except Fault (List α) :=
  if 0 ≤ i ∧ i.toNat < v.length then .ok (v.set i.toNat x)
  else .error Fault.indexOutOfRange

/-- The test `str.length() >= m_minWordSize`, a `size_t` against an `int`: the `int` is
converted to `size_t`, which sends a negative bound above every string length. -/
def lengthAtLeast (len : Nat) (m : Int) : Bool :=
  decide (0 ≤ m ∧ m ≤ (len : Int))

/-- The values a loop `for (x = mid - 1; x <= mid + 1 && x < size; ++x)` runs through. -/
def scanRange (mid size : Int) : List Int :=
  [mid - 1, mid, mid + 1].takeWhile (fun x => decide (x < size))

/-- The values of `index` computed by the two nested loops of `FindWordsUtil`, in the
order of the loops: `row` runs through `scanRange r size`, `col` through
`scanRange c size`, and `index = row * size + col` is computed when
`row >= 0 && col >= 0`. -/
def scanIndices (size r c : Int) : List Int :=
  (scanRange r size).flatMap (fun row =>
    (scanRange c size).filterMap (fun col =>
      if 0 ≤ row ∧ 0 ≤ col then some (row * size + col) else none))

/-- The assignment `m_visited[ind] = b`. -/
def setVisited (g : BoggleGame) (ind : Int) (b : Bool) : Except Fault BoggleGame := do
  let vis ← vecSet g.m_visited ind b
  .ok { g with m_visited := vis }

/-- The statement `if (m_dict.IsWordValid(str) && str.length() >= m_minWordSize)
m_words.push_back(str);`. -/
def pushIfWord (g : BoggleGame) (str : Str) : BoggleGame :=
  if g.m_dict.IsWordValid str && lengthAtLeast str.length g.m_minWordSize then
    { g with m_words := g.m_words ++ [str] }
  else g

/-- The statement `if (!m_visited[index]) FindWordsUtil(index, str);` of the loop body,
`call` being the recursive call. -/
def visitIfUnseen (call : Int → Str → BoggleGame → Except Fault BoggleGame) (str : Str)
    (gs : BoggleGame) (index : Int) : Except Fault BoggleGame := do
  let seen ← vecAt gs.m_visited index
  if seen = false then call index str gs else .ok gs

/-- The call `str.erase(str.length() - 1)`: everything from the last character on is
removed; on an empty string the position `size_t(-1)` is past the end and
`std::out_of_range` is thrown. -/
def eraseLast (str : Str) : Except Fault Str :=
  if str.length = 0 then .error Fault.eraseOutOfRange
  else .ok (str.take (str.length - 1))

/-- The function `BoggleGame::FindWordsUtil`, with a bound `fuel` on the recursion depth.
The string `str` is passed by value, so the caller never sees the changes made to it. -/
def FindWordsUtil : Nat → Int → Str → BoggleGame → Except Fault BoggleGame
  | 0, _, _, _ => .error Fault.outOfFuel
  | fuel + 1, ind, str, g =>
    if g.m_dict.CanBeWord str = false then .ok g
    else do
      let g1 ← setVisited g ind true
      let label ← vecAt g1.m_board ind
      let str1 := str ++ label
      let g2 := pushIfWord g1 str1
      if g2.m_squareSize = 0 then .error Fault.divisionByZero
      else do
        let r := ind.tdiv g2.m_squareSize
        let c := ind.tmod g2.m_squareSize
        let g3 ← (scanIndices g2.m_squareSize r c).foldlM
          (visitIfUnseen (FindWordsUtil fuel) str1) g2
        let _ ← eraseLast str1
        setVisited g3 ind false

/-- The contract of `std::sort` called with the comparator of `SortWords`,
`first.size() > second.size()`: the output is a permutation of the input, and no entry is
followed by one the comparator puts strictly before it. -/
structure StdSort where
  run : List Str → List Str
  perm : ∀ l, (run l).Perm l
  sorted : ∀ l, (run l).Pairwise (fun a b => ¬ (b.length > a.length))

/-- The function `BoggleGame::SortWords`. -/
def SortWords (S : StdSort) (g : BoggleGame) : BoggleGame :=
  { g with m_words := S.run g.m_words }

/-- The inner loop of `RemoveDuplicates`, `for (int j = i + 1; j < m_words.size(); ++j)`,
over the entries `rest` that follow `m_words[i] = w`; it does not stop at the first hit. -/
def foundDuplicate (w : Str) (rest : List Str) : Bool :=
  rest.foldl (fun found x => if w = x then true else found) false

/-- The outer loop of `RemoveDuplicates`: the list `newList` it builds. -/
def removeDuplicatesList : List Str → List Str
  | [] => []
  | w :: rest =>
    if foundDuplicate w rest then removeDuplicatesList rest
    else w :: removeDuplicatesList rest

/-- The function `BoggleGame::RemoveDuplicates`. -/
def RemoveDuplicates (g : BoggleGame) : BoggleGame :=
  { g with m_words := removeDuplicatesList g.m_words }

/-- The array `int scoreCard[] = {0, 0, 0, 1, 1, 2, 3, 5, 11}` of `ScoreWords`. -/
def scoreCard : List Int := [0, 0, 0, 1, 1, 2, 3, 5, 11]

/-- The body of the loop of `ScoreWords` for one word: the length, clamped to 8, indexes
`scoreCard`. -/
def wordScore (w : Str) : Int :=
  let len := if w.length > 8 then 8 else w.length
  scoreCard.getD len 0

/-- The function `BoggleGame::ScoreWords`: the loop pushes each score and adds it to the
running total. -/
def ScoreWords (g : BoggleGame) : BoggleGame :=
  let acc := g.m_words.foldl
    (fun (st : List Int × Int) w => (st.1 ++ [wordScore w], st.2 + wordScore w)) ([], 0)
  { g with m_wordScores := acc.1, m_totalScore := acc.2 }

/-- The loop `for (int i = 0; i < m_board.size(); ++i) FindWordsUtil(i, str)` of
`FindWords`, with `str` empty.  The recursion of `FindWordsUtil` marks one more cell at
every level, so one more than the number of cells is fuel enough. -/
def searchAll (g : BoggleGame) : Except Fault BoggleGame :=
  (List.range g.m_board.length).foldlM
    (fun gs (i : Nat) => FindWordsUtil (gs.m_visited.length + 1) (i : Int) [] gs) g

/-- The function `BoggleGame::FindWords`. -/
def FindWords (S : StdSort) (g : BoggleGame) : Except Fault BoggleGame := do
  let g1 ← searchAll g
  .ok (ScoreWords (RemoveDuplicates (SortWords S g1)))

/-- The lines a file stands for: none when it cannot be opened. -/
def linesOf (file : Option (List Str)) : List Str :=
  match file with
  | some ls => ls
  | none => []

/-! ## The specification's notions -/

/-- The de-duplication the specification describes: scan the list and retain only the
first occurrence of each distinct string, preserving order. -/
def keepFirstOccurrences (l : List Str) : List Str :=
  l.foldl (fun kept w => if w ∈ kept then kept else kept ++ [w]) []

/-- The score table the specification lists, keyed by the clamped length:
`1:0, 2:0, 3:0, 4:1, 5:1, 6:2, 7:3, 8:11`, index 0 defaulting to 0. -/
def specScoreTable : Nat → Int
  | 4 => 1
  | 5 => 1
  | 6 => 2
  | 7 => 3
  | 8 => 11
  | _ => 0

/-- The score of a word by length as the source's `scoreCard` gives it: 1 point for 3 or 4
characters, then 2, 3, 5, and 11 points from 8 characters on. -/
def boggleScoreTable : Nat → Int
  | 3 => 1
  | 4 => 1
  | 5 => 2
  | 6 => 3
  | 7 => 5
  | 8 => 11
  | _ => 0

/-- The label of cell `i` of a board. -/
def labelAt (board : List Str) (i : Int) : Str :=
  board.getD i.toNat []

/-- The concatenation of the whole cell labels along a sequence of cells. -/
def labelsAlong (board : List Str) (p : List Int) : Str :=
  (p.map (labelAt board)).flatten

/-- Cell `i` of a `size × size` board lies in row `i / size`, column `i % size`.  Two
cells are 8-adjacent when they differ and their rows and their columns are at most one
apart. -/
def adjacent8 (size a b : Int) : Prop :=
  a ≠ b ∧ (a / size - b / size).natAbs ≤ 1 ∧ (a % size - b % size).natAbs ≤ 1

instance (size a b : Int) : Decidable (adjacent8 size a b) := by
  unfold adjacent8
  exact inferInstance

/-- A non-empty simple path: no cell twice, every cell on the board, consecutive cells
8-adjacent. -/
def IsSimplePath (size : Int) (p : List Int) : Prop :=
  p ≠ [] ∧ p.Nodup ∧ (∀ i ∈ p, 0 ≤ i ∧ i < size * size) ∧ p.Chain' (adjacent8 size)

instance (size : Int) (p : List Int) : Decidable (IsSimplePath size p) := by
  unfold IsSimplePath
  exact inferInstance

/-- What one call `FindWordsUtil(ind, str)` pushes on `m_words`, read off the body of the
function: the call goes on only when `CanBeWord(str)` holds; it pushes `str + m_board[ind]`
when that is a long enough word, and whatever the calls on the scanned, unvisited cells
push once `ind` is marked. -/
inductive Pushes (d : Dictionary) (board : List Str) (size minLen : Int) :
    List Bool → Int → Str → Str → Prop where
  | here (V : List Bool) (ind : Int) (str : Str) :
      d.CanBeWord str = true →
      d.IsWordValid (str ++ labelAt board ind) = true →
      lengthAtLeast (str ++ labelAt board ind).length minLen = true →
      Pushes d board size minLen V ind str (str ++ labelAt board ind)
  | step (V : List Bool) (ind : Int) (str : Str) (j : Int) (w : Str) :
      d.CanBeWord str = true →
      j ∈ scanIndices size (ind.tdiv size) (ind.tmod size) →
      (V.set ind.toNat true)[j.toNat]? = some false →
      Pushes d board size minLen (V.set ind.toNat true) j (str ++ labelAt board ind) w →
      Pushes d board size minLen V ind str w

/-- The game `g` with the words `ws` pushed on `m_words`. -/
def BoggleGame.withWords (g : BoggleGame) (ws : List Str) : BoggleGame :=
  { g with m_words := g.m_words ++ ws }

/-- A well-formed game: the side is at least 1, the board has `size * size` labels, none
of them empty, and there is one visited flag per cell. -/
structure WellFormed (g : BoggleGame) : Prop where
  size_pos : 1 ≤ g.m_squareSize
  board_len : (g.m_board.length : Int) = g.m_squareSize * g.m_squareSize
  visited_len : g.m_visited.length = g.m_board.length
  labels : ∀ l ∈ g.m_board, l ≠ []

/-- Keeping only the last occurrence of each distinct string, the kept entries in their
original order: the mirror image of `keepFirstOccurrences`. -/
def keepLastOccurrences (l : List Str) : List Str :=
  (keepFirstOccurrences l.reverse).reverse

/-- The scenario of the specification: side 2, board `A B / C D`, minimum length 3, a
dictionary file whose only line is `ABD`. -/
def scenarioGame : BoggleGame :=
  BoggleGame.new 2 3 (some ["ABD".toList]) ["A".toList, "B".toList, "C".toList, "D".toList]

/-- A game in which two words of equal length are found several times: side 2, board
`A B / A D`, minimum length 2, dictionary file with the lines `AB` and `BA`. -/
def twoWordGame : BoggleGame :=
  BoggleGame.new 2 2 (some ["AB".toList, "BA".toList])
    ["A".toList, "B".toList, "A".toList, "D".toList]

/-- A board as `main` builds it from the input line `A  C D` (two spaces after `A`): four
tokens, the second one empty.  Side 2, minimum length 1, dictionary file with the one line
`AC`. -/
def emptyLabelGame : BoggleGame :=
  BoggleGame.new 2 1 (some ["AC".toList]) ["A".toList, [], "C".toList, "D".toList]

/-- A game on a 3 × 3 board with a two-character label: board `A B C / D E F / G QU I`,
minimum length 2, dictionary file with the lines `AB`, `BA`, `ABCFI`, `AEI`, `AC`, `GEC`,
`GQUI`. -/
def threeByThreeGame : BoggleGame :=
  BoggleGame.new 3 2
    (some ["AB".toList, "BA".toList, "ABCFI".toList, "AEI".toList, "AC".toList,
      "GEC".toList, "GQUI".toList])
    ["A".toList, "B".toList, "C".toList, "D".toList, "E".toList, "F".toList, "G".toList,
      "QU".toList, "I".toList]

/-- The call `std::find(m_words.begin(), m_words.end(), word)`: the position of the first
entry equal to `word`, the length of the list (the end) when there is none. -/
def findPos (word : Str) : List Str → Nat
  | [] => 0
  | w :: ws => if w = word then 0 else findPos word ws + 1

/-- The function `BoggleGame::CheckAndLogLegalWord`.  The result holds the game after the
call, the items written to `std::cout` in order, and the returned value
`pos != m_words.end()`. -/
def CheckAndLogLegalWord (g : BoggleGame) (word : Str) : BoggleGame × List Str × Bool :=
  let pos := findPos word g.m_words
  let found := decide (pos ≠ g.m_words.length)
  let out :=
    if found then ["YES, ".toList, word, " is legal".toList]
    else
      ["NO, ".toList, word, " is illegal".toList] ++
        (if g.m_dict.IsWordValid word then [" in this game, but is a valid word!".toList]
          else [])
  (g, out ++ ["\n".toList], found)

/-- The Chebyshev distance between the cells `(r, c)` and `(row, col)`. -/
def chebyshev (r c row col : Int) : Nat :=
  max (row - r).natAbs (col - c).natAbs

/-- The scenario of the specification for the word check: side 2, board `A B / C D`,
minimum length 3, dictionary file with the lines `ABD` and `XYZ`. -/
def xyzGame : BoggleGame :=
  BoggleGame.new 2 3 (some ["ABD".toList, "XYZ".toList])
    ["A".toList, "B".toList, "C".toList, "D".toList]

/-- The positions of a list that hold the last occurrence of their string: position `i`
is kept when no position `j > i` holds an equal string. -/
def keptPositions (l : List Str) : List Nat :=
  (List.range l.length).filter
    (fun i => decide (∀ j, j < l.length → i < j → l[j]? ≠ l[i]?))

/-- Stability of a sort by length: for every length, the entries of that length stand in
the output in the order they had in the input. -/
def KeepsEqualLengthOrder (input output : List Str) : Prop :=
  ∀ n : Nat, output.filter (fun w => decide (w.length = n))
    = input.filter (fun w => decide (w.length = n))

/-! ## The search as the specification words it -/

/-- The neighbours of the specification: the cells of rows `row - 1 .. row + 1` and
columns `col - 1 .. col + 1` that lie within the grid, `row, col ∈ [0, size)`; the cell
itself is among them and is left out by the visited test. -/
def specNeighbours (size ind : Int) : List Int :=
  [ind / size - 1, ind / size, ind / size + 1].flatMap (fun row =>
    [ind % size - 1, ind % size, ind % size + 1].filterMap (fun col =>
      if 0 ≤ row ∧ row < size ∧ 0 ≤ col ∧ col < size then some (row * size + col) else none))

/-- The specification's "recurse into every neighbour that is not currently visited",
for one neighbour, `call` being the recursive step. -/
def specVisit (call : Int → Str → BoggleGame → Option BoggleGame) (candidate : Str)
    (gs : BoggleGame) (j : Int) : Option BoggleGame :=
  if gs.m_visited.getD j.toNat true = false then call j candidate gs else some gs

/-- The DFS step of the specification at cell `ind` with accumulated string `str`:
compute `candidate = str + board[ind]`; if `CanExtend(candidate)` is false, abandon the
branch (nothing is marked, nothing is visited further); otherwise mark `ind`, append
`candidate` when it is a word of at least the minimum length, recurse into the unvisited
neighbours, and unmark `ind`.  The result is `none` when the bound `fuel` on the depth is
used up. -/
def specStep : Nat → Int → Str → BoggleGame → Option BoggleGame
  | 0, _, _, _ => none
  | fuel + 1, ind, str, g =>
    if g.m_dict.CanBeWord (str ++ labelAt g.m_board ind) = false then some g
    else
      ((specNeighbours g.m_squareSize ind).foldlM
        (specVisit (specStep fuel) (str ++ labelAt g.m_board ind))
        (if g.m_dict.IsWordValid (str ++ labelAt g.m_board ind) = true ∧
            g.m_minWordSize ≤ ((str ++ labelAt g.m_board ind).length : Int) then
          { g with
            m_visited := g.m_visited.set ind.toNat true
            m_words := g.m_words ++ [str ++ labelAt g.m_board ind] }
        else { g with m_visited := g.m_visited.set ind.toNat true })).map
        (fun g3 => { g3 with m_visited := g3.m_visited.set ind.toNat false })

/-- Step 1 of the specification's `FindWords`: for every starting cell `i` in
`[0, size * size)`, the DFS step seeded with the empty candidate string. -/
def specSearch (g : BoggleGame) : Option BoggleGame :=
  (List.range (g.m_squareSize * g.m_squareSize).toNat).foldlM
    (fun gs (i : Nat) => specStep (gs.m_visited.length + 1) (i : Int) [] gs) g

/-! ## The `std::sort` of libstdc++

`SortWords` calls `std::sort`, whose code is not part of the program.  The definitions
below follow the routine of libstdc++ (`bits/stl_algo.h`, `bits/stl_heap.h`) function by
function, for a `std::vector<std::string>` and the comparator of `SortWords`.  Iterators
are positions in the vector.  The loops of the library that have no bound test stop at an
element the library knows to be there; in the model a read outside the vector yields the
empty string, at which every such scan stops as well.  The `while` loops carry a bound on
the number of rounds; each is called with a bound it cannot reach (`scanUp_succ_bound`,
`unguardedPartition_succ_bound`, `pushHeap_succ_bound`, `adjustHeapLoop_succ_bound`,
`lg_succ_bound`). -/

/-- The comparator of `SortWords`: `first.size() > second.size()`. -/
def byLonger (first second : Str) : Bool :=
  decide (first.length > second.length)

/-- The loop of `std::__unguarded_linear_insert`: while `comp(val, *next)`, the entry at
`next` moves one place up; then `val` is stored.  The second argument is `last`, and
`next = last - 1`. -/
def linearInsertLoop (val : Str) : List Str → Nat → List Str
  | a, 0 => a.set 0 val
  | a, next + 1 =>
    if byLonger val (a.getD next []) then
      linearInsertLoop val (a.set (next + 1) (a.getD next [])) next
    else a.set (next + 1) val

/-- The function `std::__unguarded_linear_insert(last)`, with `val = *last`. -/
def unguardedLinearInsert (a : List Str) (last : Nat) : List Str :=
  linearInsertLoop (a.getD last []) a last

/-- The body of the loop of `std::__insertion_sort(begin, ...)` at position `i`: when
`comp(*i, *first)` the entry moves to the front and the entries before it one place up
(`move_backward`), otherwise it is inserted by `__unguarded_linear_insert`. -/
def insertionStep (a : List Str) (i : Nat) : List Str :=
  if byLonger (a.getD i []) (a.getD 0 []) then
    a.getD i [] :: (a.take i ++ a.drop (i + 1))
  else unguardedLinearInsert a i

/-- The function `std::__insertion_sort(begin, begin + n)`. -/
def insertionSort (a : List Str) (n : Nat) : List Str :=
  (List.range' 1 (n - 1)).foldl insertionStep a

/-- The function `std::__unguarded_insertion_sort(begin + start, begin + n)`. -/
def unguardedInsertionSort (a : List Str) (start n : Nat) : List Str :=
  (List.range' start (n - start)).foldl unguardedLinearInsert a

/-- The function `std::__final_insertion_sort(begin, end)`, with `_S_threshold = 16`. -/
def finalInsertionSort (a : List Str) : List Str :=
  if a.length > 16 then unguardedInsertionSort (insertionSort a 16) 16 a.length
  else insertionSort a a.length

/-- The function `std::iter_swap`. -/
def iterSwap (a : List Str) (i j : Nat) : List Str :=
  (a.set i (a.getD j [])).set j (a.getD i [])

/-- The function `std::__move_median_to_first(result, a, b, c)`. -/
def moveMedianToFirst (v : List Str) (result a b c : Nat) : List Str :=
  if byLonger (v.getD a []) (v.getD b []) then
    if byLonger (v.getD b []) (v.getD c []) then iterSwap v result b
    else if byLonger (v.getD a []) (v.getD c []) then iterSwap v result c
    else iterSwap v result a
  else if byLonger (v.getD a []) (v.getD c []) then iterSwap v result a
  else if byLonger (v.getD b []) (v.getD c []) then iterSwap v result c
  else iterSwap v result b

/-- The loop `while (comp(first, pivot)) ++first;` of `std::__unguarded_partition`; the
first argument bounds the number of steps. -/
def scanUp (v : List Str) (pivot : Nat) : Nat → Nat → Nat
  | 0, first => first
  | k + 1, first =>
    if byLonger (v.getD first []) (v.getD pivot []) then scanUp v pivot k (first + 1)
    else first

/-- The loop `while (comp(pivot, last)) --last;` of `std::__unguarded_partition`. -/
def scanDown (v : List Str) (pivot : Nat) : Nat → Nat
  | 0 => 0
  | l + 1 =>
    if byLonger (v.getD pivot []) (v.getD (l + 1) []) then scanDown v pivot l else l + 1

/-- The function `std::__unguarded_partition(first, last, pivot)`; the first argument
bounds the number of rounds of its outer loop.  The result is the vector and the
position returned. -/
def unguardedPartition (pivot : Nat) : Nat → List Str → Nat → Nat → List Str × Nat
  | 0, v, first, _ => (v, first)
  | k + 1, v, first, last =>
    let f := scanUp v pivot v.length first
    let l := scanDown v pivot (last - 1)
    if f < l then unguardedPartition pivot k (iterSwap v f l) (f + 1) l
    else (v, f)

/-- The function `std::__unguarded_partition_pivot(first, last)`. -/
def partitionPivot (v : List Str) (first last : Nat) : List Str × Nat :=
  let mid := first + (last - first) / 2
  let v1 := moveMedianToFirst v first (first + 1) mid (last - 1)
  unguardedPartition first v1.length v1 (first + 1) last

/-- The function `std::__push_heap(first, holeIndex, topIndex, value)`; the first
numeric argument bounds the number of rounds of its loop. -/
def pushHeap (first topIndex : Nat) (value : Str) : Nat → List Str → Nat → List Str
  | 0, v, hole => v.set (first + hole) value
  | k + 1, v, hole =>
    if hole > topIndex ∧ byLonger (v.getD (first + (hole - 1) / 2) []) value = true then
      pushHeap first topIndex value k
        (v.set (first + hole) (v.getD (first + (hole - 1) / 2) [])) ((hole - 1) / 2)
    else v.set (first + hole) value

/-- The child `std::__adjust_heap` moves into the hole: `secondChild = 2 * (hole + 1)`,
decremented when `comp(first + secondChild, first + (secondChild - 1))`. -/
def childToMove (v : List Str) (first hole : Nat) : Nat :=
  if byLonger (v.getD (first + 2 * (hole + 1)) []) (v.getD (first + (2 * (hole + 1) - 1)) [])
  then 2 * (hole + 1) - 1 else 2 * (hole + 1)

/-- The first loop of `std::__adjust_heap`, `while (secondChild < (len - 1) / 2)`; at the
head of the loop `secondChild` equals `holeIndex`.  The first numeric argument bounds
the number of rounds. -/
def adjustHeapLoop (first len : Nat) : Nat → List Str → Nat → List Str × Nat
  | 0, v, hole => (v, hole)
  | k + 1, v, hole =>
    if hole < (len - 1) / 2 then
      adjustHeapLoop first len k
        (v.set (first + hole) (v.getD (first + childToMove v first hole) []))
        (childToMove v first hole)
    else (v, hole)

/-- The function `std::__adjust_heap(first, holeIndex, len, value)`.  The distances of the
library are signed: for `len = 0` its `(len - 2) / 2` is negative and the test of the
single-child case fails, hence the condition `2 ≤ len`. -/
def adjustHeap (v : List Str) (first hole len : Nat) (value : Str) : List Str :=
  let r := adjustHeapLoop first len len v hole
  let r2 : List Str × Nat :=
    if len % 2 = 0 ∧ 2 ≤ len ∧ r.2 = (len - 2) / 2 then
      (r.1.set (first + r.2) (r.1.getD (first + (2 * (r.2 + 1) - 1)) []), 2 * (r.2 + 1) - 1)
    else r
  pushHeap first hole value len r2.1 r2.2

/-- The function `std::__pop_heap(first, last, result)`. -/
def popHeap (v : List Str) (first last result : Nat) : List Str :=
  adjustHeap (v.set result (v.getD first [])) first 0 (last - first) (v.getD result [])

/-- The function `std::__make_heap(first, last)`: `parent` runs from `(len - 2) / 2` down
to 0. -/
def makeHeap (v : List Str) (first last : Nat) : List Str :=
  if last - first < 2 then v
  else (List.range ((last - first - 2) / 2 + 1)).reverse.foldl
    (fun w parent => adjustHeap w first parent (last - first) (w.getD (first + parent) [])) v

/-- The function `std::__sort_heap(first, first + len)`. -/
def sortHeap (first : Nat) : Nat → List Str → List Str
  | 0, v => v
  | 1, v => v
  | len + 2, v => sortHeap first (len + 1) (popHeap v first (first + len + 1) (first + len + 1))

/-- The call `std::__partial_sort(first, last, last)` of `__introsort_loop`: with
`middle = last` the loop of `__heap_select` is empty, so it is `__make_heap` followed by
`__sort_heap`. -/
def heapSortRange (v : List Str) (first last : Nat) : List Str :=
  sortHeap first (last - first) (makeHeap v first last)

/-- The function `std::__introsort_loop(first, last, depth_limit)`, by recursion on
`depth_limit`: the library decrements it in every round of its `while` loop, passes it to
the recursive call on `[cut, last)` and goes on with `last = cut`. -/
def introsortLoop : Nat → List Str → Nat → Nat → List Str
  | 0, v, first, last => if last - first > 16 then heapSortRange v first last else v
  | depthLimit + 1, v, first, last =>
    if last - first > 16 then
      introsortLoop depthLimit
        (introsortLoop depthLimit (partitionPivot v first last).1
          (partitionPivot v first last).2 last)
        first (partitionPivot v first last).2
    else v

/-- The function `std::__lg`: the binary logarithm, rounded down; the first argument
bounds the number of halvings. -/
def lg : Nat → Nat → Nat
  | 0, _ => 0
  | k + 1, n => if n < 2 then 0 else lg k (n / 2) + 1

/-- The function `std::sort(v.begin(), v.end(), comp)` of libstdc++ with the comparator of
`SortWords`. -/
def gnuSortList (v : List Str) : List Str :=
  if v.length = 0 then v
  else finalInsertionSort (introsortLoop (2 * lg v.length v.length) v 0 v.length)

/-- The insertion the final pass of the library performs, on the reversed list of the
entries before the inserted one: `val` passes every entry it is longer than. -/
def insertRev (val : Str) : List Str → List Str
  | [] => [val]
  | x :: xs => if byLonger val x then x :: insertRev val xs else val :: x :: xs

/-- Insertion of `val` behind the entries `p`: it moves up past the entries at the end of
`p` that are shorter than it. -/
def insertRight (val : Str) (p : List Str) : List Str :=
  (insertRev val p.reverse).reverse

/-- Insertion sort from the left with `insertRight`. -/
def sortRight (l : List Str) : List Str :=
  l.foldl (fun acc v => insertRight v acc) []

/-- A game in which `std::sort` gets more than 16 words: side 2, board `A E / R T`, minimum
length 2 and a dictionary file with 22 words. -/
def wordRichGame : BoggleGame :=
  BoggleGame.new 2 2
    (some ["AE".toList, "AR".toList, "AT".toList, "ER".toList, "ET".toList, "RE".toList,
      "TA".toList, "ARE".toList, "ART".toList, "ATE".toList, "EAR".toList, "EAT".toList,
      "ERA".toList, "ETA".toList, "RAT".toList, "RET".toList, "TAE".toList, "TAR".toList,
      "TEA".toList, "RATE".toList, "TARE".toList, "TEAR".toList])
    ["A".toList, "E".toList, "R".toList, "T".toList]

/-! ## A sorting routine that meets the contract of `std::sort` -/

/-- Insertion of a word into a list kept in non-increasing length, before the entries
that are not longer than it. -/
def insertByLength (w : Str) : List Str → List Str
  | [] => [w]
  | x :: xs => if x.length ≤ w.length then w :: x :: xs else x :: insertByLength w xs

/-- Insertion sort by non-increasing length. -/
def sortByLength : List Str → List Str
  | [] => []
  | w :: ws => insertByLength w (sortByLength ws)

end Boggle

namespace Boggle

/-! ## Facts about the dictionary -/

theorem mem_foldl_insertPrefix (line : Str) (s : Str) (ks : List Nat) (cd : List Str) :
    s ∈ ks.foldl
        (fun cd k => if line.take (k + 1) ∈ cd then cd else cd.insert (line.take (k + 1))) cd
      ↔ s ∈ cd ∨ ∃ k ∈ ks, s = line.take (k + 1) := by
  induction ks generalizing cd with
  | nil => simp
  | cons k ks ih =>
    rw [List.foldl_cons, ih]
    by_cases hk : line.take (k + 1) ∈ cd
    · simp only [hk, if_true, List.mem_cons, exists_eq_or_imp]
      constructor
      · rintro (h | h)
        · exact Or.inl h
        · exact Or.inr (Or.inr h)
      · rintro (h | h | h)
        · exact Or.inl h
        · exact Or.inl (h ▸ hk)
        · exact Or.inr h
    · simp only [hk, if_false, List.mem_insert_iff, List.mem_cons, exists_eq_or_imp]
      tauto

theorem mem_insertPrefixes (cd : List Str) (line s : Str) :
    s ∈ insertPrefixes cd line ↔ s ∈ cd ∨ ∃ k, k < line.length ∧ s = line.take (k + 1) := by
  unfold insertPrefixes
  rw [mem_foldl_insertPrefix]
  simp only [List.mem_range]

/-- The prefixes inserted for one line are its non-empty prefixes. -/
theorem exists_take_iff_initial_segment (line s : Str) :
    (∃ k, k < line.length ∧ s = line.take (k + 1)) ↔ s ≠ [] ∧ s <+: line := by
  constructor
  · rintro ⟨k, hk, rfl⟩
    refine ⟨?_, List.take_prefix _ _⟩
    intro h
    have hl := congrArg List.length h
    simp only [List.length_take, List.length_nil] at hl
    omega
  · rintro ⟨hs, hp⟩
    have hlen : s.length ≤ line.length := hp.length_le
    have hpos : 0 < s.length := List.length_pos.mpr hs
    refine ⟨s.length - 1, by omega, ?_⟩
    have h1 : s.length - 1 + 1 = s.length := by omega
    rw [h1]
    exact (List.prefix_iff_eq_take.mp hp)

theorem mem_foldl_loadLine_dictionary (lines : List Str) (d : Dictionary) (w : Str) :
    w ∈ (lines.foldl loadLine d).m_dictionary ↔ w ∈ d.m_dictionary ∨ w ∈ lines := by
  induction lines generalizing d with
  | nil => simp
  | cons l ls ih =>
    rw [List.foldl_cons, ih]
    simp only [loadLine, List.mem_insert_iff, List.mem_cons]
    tauto

theorem mem_foldl_loadLine_crazyDict (lines : List Str) (d : Dictionary) (s : Str) :
    s ∈ (lines.foldl loadLine d).m_crazyDict ↔
      s ∈ d.m_crazyDict ∨ ∃ l ∈ lines, s ≠ [] ∧ s <+: l := by
  induction lines generalizing d with
  | nil => simp
  | cons l ls ih =>
    rw [List.foldl_cons, ih]
    simp only [loadLine, mem_insertPrefixes, exists_take_iff_initial_segment, List.mem_cons,
      exists_eq_or_imp]
    tauto

theorem IsWordValid_load (file : Option (List Str)) (s : Str) :
    (Dictionary.fresh.LoadDictionary file).2.IsWordValid s = true ↔ s ∈ linesOf file := by
  cases file <;>
    simp [Dictionary.LoadDictionary, Dictionary.IsWordValid, linesOf,
      mem_foldl_loadLine_dictionary, Dictionary.fresh]

theorem CanBeWord_load (file : Option (List Str)) (s : Str) :
    (Dictionary.fresh.LoadDictionary file).2.CanBeWord s = true ↔
      s = [] ∨ ∃ l ∈ linesOf file, s ≠ [] ∧ s <+: l := by
  cases file <;>
    simp [Dictionary.LoadDictionary, Dictionary.CanBeWord, linesOf,
      mem_foldl_loadLine_crazyDict, Dictionary.fresh]

/-- Every prefix of a word of the dictionary passes `CanBeWord`. -/
theorem CanBeWord_of_initial_segment (file : Option (List Str)) (s w : Str)
    (hw : (Dictionary.fresh.LoadDictionary file).2.IsWordValid w = true) (hp : s <+: w) :
    (Dictionary.fresh.LoadDictionary file).2.CanBeWord s = true := by
  rw [CanBeWord_load]
  rw [IsWordValid_load] at hw
  by_cases hs : s = []
  · exact Or.inl hs
  · exact Or.inr ⟨w, hw, hs, hp⟩

end Boggle

namespace Boggle

/-! ## Sorting, duplicate removal and scoring -/

theorem insertByLength_perm (w : Str) (l : List Str) : (insertByLength w l).Perm (w :: l) := by
  induction l with
  | nil => simp [insertByLength]
  | cons x xs ih =>
    unfold insertByLength
    split
    · exact List.Perm.refl _
    · exact (List.Perm.cons x ih).trans (List.Perm.swap w x xs)

theorem sortByLength_perm (l : List Str) : (sortByLength l).Perm l := by
  induction l with
  | nil => exact List.Perm.refl _
  | cons w ws ih =>
    unfold sortByLength
    exact (insertByLength_perm w _).trans (List.Perm.cons w ih)

theorem insertByLength_sorted (w : Str) (l : List Str)
    (h : l.Pairwise (fun a b => ¬ (b.length > a.length))) :
    (insertByLength w l).Pairwise (fun a b => ¬ (b.length > a.length)) := by
  induction l with
  | nil => simp [insertByLength]
  | cons x xs ih =>
    unfold insertByLength
    rw [List.pairwise_cons] at h
    split
    · rename_i hx
      rw [List.pairwise_cons]
      refine ⟨?_, List.pairwise_cons.mpr h⟩
      intro b hb
      rcases List.mem_cons.mp hb with rfl | hb
      · omega
      · have := h.1 b hb
        omega
    · rename_i hx
      rw [List.pairwise_cons]
      refine ⟨?_, ih h.2⟩
      intro b hb
      rcases List.mem_cons.mp ((insertByLength_perm w xs).subset hb) with rfl | hb
      · omega
      · exact h.1 b hb

theorem sortByLength_sorted (l : List Str) :
    (sortByLength l).Pairwise (fun a b => ¬ (b.length > a.length)) := by
  induction l with
  | nil => simp [sortByLength]
  | cons w ws ih =>
    unfold sortByLength
    exact insertByLength_sorted w _ ih

/-- Insertion sort by non-increasing length as an instance of the contract of
`std::sort`. -/
def stableSort : StdSort :=
  ⟨sortByLength, sortByLength_perm, sortByLength_sorted⟩

theorem foldl_foundDuplicate (w : Str) (rest : List Str) (b : Bool) :
    rest.foldl (fun found x => if w = x then true else found) b = (b || decide (w ∈ rest)) := by
  induction rest generalizing b with
  | nil => simp
  | cons x xs ih =>
    rw [List.foldl_cons, ih]
    by_cases hx : w = x
    · simp [hx]
    · simp [hx]

theorem foundDuplicate_eq (w : Str) (rest : List Str) :
    foundDuplicate w rest = decide (w ∈ rest) := by
  unfold foundDuplicate
  rw [foldl_foundDuplicate]
  simp

theorem mem_removeDuplicatesList (l : List Str) (w : Str) :
    w ∈ removeDuplicatesList l ↔ w ∈ l := by
  induction l with
  | nil => simp [removeDuplicatesList]
  | cons x xs ih =>
    unfold removeDuplicatesList
    rw [foundDuplicate_eq]
    by_cases hx : x ∈ xs
    · simp only [hx, decide_True, if_true, ih, List.mem_cons]
      constructor
      · exact Or.inr
      · rintro (rfl | h)
        · exact hx
        · exact h
    · simp [hx, ih]

theorem removeDuplicatesList_sublist (l : List Str) : (removeDuplicatesList l).Sublist l := by
  induction l with
  | nil => simp [removeDuplicatesList]
  | cons x xs ih =>
    unfold removeDuplicatesList
    split
    · exact ih.trans (List.sublist_cons_self x xs)
    · exact ih.cons₂ x

theorem removeDuplicatesList_nodup (l : List Str) : (removeDuplicatesList l).Nodup := by
  induction l with
  | nil => simp [removeDuplicatesList]
  | cons x xs ih =>
    unfold removeDuplicatesList
    rw [foundDuplicate_eq]
    by_cases hx : x ∈ xs
    · simpa [hx] using ih
    · simp only [hx, decide_False, Bool.false_eq_true, if_false, List.nodup_cons]
      exact ⟨fun h => hx ((mem_removeDuplicatesList xs x).mp h), ih⟩

theorem keepFirstOccurrences_append_singleton (l : List Str) (w : Str) :
    keepFirstOccurrences (l ++ [w]) =
      if w ∈ keepFirstOccurrences l then keepFirstOccurrences l
      else keepFirstOccurrences l ++ [w] := by
  unfold keepFirstOccurrences
  rw [List.foldl_append]
  rfl

theorem removeDuplicatesList_eq_mirror (l : List Str) :
    removeDuplicatesList l = (keepFirstOccurrences l.reverse).reverse := by
  induction l with
  | nil => rfl
  | cons x xs ih =>
    have hmem : x ∈ keepFirstOccurrences xs.reverse ↔ x ∈ xs := by
      rw [← List.mem_reverse, ← ih, mem_removeDuplicatesList]
    rw [List.reverse_cons, keepFirstOccurrences_append_singleton]
    unfold removeDuplicatesList
    rw [foundDuplicate_eq]
    by_cases hx : x ∈ xs
    · simp [hx, hmem, ih]
    · simp [hx, hmem, ih]

theorem foldl_score (ws : List Str) (a : List Int) (t : Int) :
    ws.foldl (fun (st : List Int × Int) w => (st.1 ++ [wordScore w], st.2 + wordScore w)) (a, t)
      = (a ++ ws.map wordScore, t + (ws.map wordScore).sum) := by
  induction ws generalizing a t with
  | nil => simp
  | cons w ws ih =>
    rw [List.foldl_cons, ih]
    simp [add_assoc]

theorem ScoreWords_wordScores (g : BoggleGame) :
    (ScoreWords g).m_wordScores = g.m_words.map wordScore := by
  simp [ScoreWords, foldl_score]

theorem ScoreWords_totalScore (g : BoggleGame) :
    (ScoreWords g).m_totalScore = (g.m_words.map wordScore).sum := by
  simp [ScoreWords, foldl_score]

theorem ScoreWords_words (g : BoggleGame) : (ScoreWords g).m_words = g.m_words := rfl

theorem wordScore_eq_table (w : Str) : wordScore w = boggleScoreTable (min w.length 8) := by
  unfold wordScore
  by_cases h : w.length > 8
  · have h8 : min w.length 8 = 8 := by omega
    simp [h, h8, scoreCard, boggleScoreTable]
  · have hm : min w.length 8 = w.length := by omega
    rw [hm]
    simp only [h, if_false]
    have hle : w.length ≤ 8 := by omega
    generalize w.length = n at hle
    interval_cases n <;> rfl

theorem FindWords_eq_ok (S : StdSort) (g g' : BoggleGame) (h : FindWords S g = .ok g') :
    ∃ g1, searchAll g = .ok g1 ∧ g' = ScoreWords (RemoveDuplicates (SortWords S g1)) := by
  unfold FindWords at h
  cases hs : searchAll g with
  | error e => rw [hs] at h; cases h
  | ok g1 =>
    rw [hs] at h
    refine ⟨g1, rfl, ?_⟩
    injection h with h
    exact h.symm

end Boggle

namespace Boggle

/-! ## The neighbour scan -/

theorem mem_scanRange (mid size x : Int) :
    x ∈ scanRange mid size ↔ (x = mid - 1 ∨ x = mid ∨ x = mid + 1) ∧ x < size := by
  unfold scanRange
  by_cases h1 : mid - 1 < size <;> by_cases h2 : mid < size <;> by_cases h3 : mid + 1 < size <;>
    simp [List.takeWhile, h1, h2, h3] <;> omega

theorem mem_scanIndices (size r c j : Int) :
    j ∈ scanIndices size r c ↔
      ∃ row col, ((row = r - 1 ∨ row = r ∨ row = r + 1) ∧ row < size) ∧
        ((col = c - 1 ∨ col = c ∨ col = c + 1) ∧ col < size) ∧
        0 ≤ row ∧ 0 ≤ col ∧ j = row * size + col := by
  unfold scanIndices
  simp only [List.mem_flatMap, List.mem_filterMap, mem_scanRange]
  constructor
  · rintro ⟨row, hrow, col, hcol, h⟩
    by_cases hg : 0 ≤ row ∧ 0 ≤ col
    · rw [if_pos hg] at h
      exact ⟨row, col, hrow, hcol, hg.1, hg.2, (Option.some.inj h).symm⟩
    · rw [if_neg hg] at h
      cases h
  · rintro ⟨row, col, hrow, hcol, h0, h1, rfl⟩
    exact ⟨row, hrow, col, hcol, by rw [if_pos ⟨h0, h1⟩]⟩

theorem cell_lt_square (size row col : Int) (hrow : row < size) (hcol : col < size)
    (h0 : 0 ≤ row) : row * size + col < size * size := by
  have h1 : (row + 1) * size ≤ size * size :=
    Int.mul_le_mul_of_nonneg_right (by omega) (by omega)
  have h2 : (row + 1) * size = row * size + size := by ring
  omega

theorem cell_div (size row col : Int) (hcol : col < size) (h1 : 0 ≤ col) :
    (row * size + col) / size = row := by
  have hs : size ≠ 0 := by omega
  rw [Int.add_comm, Int.add_mul_ediv_right _ _ hs, Int.ediv_eq_zero_of_lt h1 hcol]
  simp

theorem cell_mod (size row col : Int) (hcol : col < size) (h1 : 0 ≤ col) :
    (row * size + col) % size = col := by
  rw [Int.add_comm, Int.add_mul_emod_self, Int.emod_eq_of_lt h1 hcol]

/-- The cells the two loops reach from an in-bounds cell: the in-bounds cells whose row
and column are at most one away (the cell itself among them). -/
theorem mem_scanIndices_iff (size ind j : Int) (hsize : 1 ≤ size) (h0 : 0 ≤ ind) :
    j ∈ scanIndices size (ind.tdiv size) (ind.tmod size) ↔
      (0 ≤ j ∧ j < size * size) ∧ (j / size - ind / size).natAbs ≤ 1 ∧
        (j % size - ind % size).natAbs ≤ 1 := by
  have hs0 : (0 : Int) ≤ size := by omega
  have hspos : (0 : Int) < size := by omega
  have hsne : size ≠ 0 := by omega
  rw [Int.tdiv_eq_ediv h0 hs0, Int.tmod_eq_emod h0 hs0, mem_scanIndices]
  have hr0 : 0 ≤ ind / size := Int.ediv_nonneg h0 hs0
  have hc0 : 0 ≤ ind % size := Int.emod_nonneg _ hsne
  constructor
  · rintro ⟨row, col, ⟨hrow, hrs⟩, ⟨hcol, hcs⟩, hr, hc, rfl⟩
    rw [cell_div size row col hcs hc, cell_mod size row col hcs hc]
    refine ⟨⟨?_, cell_lt_square size row col hrs hcs hr⟩, by omega, by omega⟩
    have : 0 ≤ row * size := Int.mul_nonneg hr hs0
    omega
  · rintro ⟨⟨hj0, hj1⟩, hr, hc⟩
    refine ⟨j / size, j % size, ⟨by omega, Int.ediv_lt_of_lt_mul hspos hj1⟩,
      ⟨by omega, Int.emod_lt_of_pos _ hspos⟩, Int.ediv_nonneg hj0 hs0,
      Int.emod_nonneg _ hsne, ?_⟩
    have := Int.ediv_add_emod j size
    rw [Int.mul_comm] at this
    exact this.symm

end Boggle

namespace Boggle

/-! ## The depth-first search, call by call -/

theorem withWords_nil (g : BoggleGame) : g.withWords [] = g := by
  cases g
  simp [BoggleGame.withWords]

theorem withWords_withWords (g : BoggleGame) (a b : List Str) :
    (g.withWords a).withWords b = g.withWords (a ++ b) := by
  simp [BoggleGame.withWords]

theorem WellFormed.withWords {g : BoggleGame} (h : WellFormed g) (ws : List Str) :
    WellFormed (g.withWords ws) :=
  ⟨h.size_pos, h.board_len, h.visited_len, h.labels⟩

theorem vecAt_ok {α : Type} (v : List α) (i : Int) (x : α) (h0 : 0 ≤ i)
    (h : v[i.toNat]? = some x) : vecAt v i = .ok x := by
  unfold vecAt
  rw [if_pos h0, h]

theorem vecSet_ok {α : Type} (v : List α) (i : Int) (x : α) (h0 : 0 ≤ i)
    (h : i.toNat < v.length) : vecSet v i x = .ok (v.set i.toNat x) := by
  unfold vecSet
  rw [if_pos ⟨h0, h⟩]

theorem mem_of_getElem?_eq_some {α : Type} (l : List α) (i : Nat) (x : α)
    (h : l[i]? = some x) : x ∈ l := by
  obtain ⟨hi, hv⟩ := List.getElem?_eq_some_iff.mp h
  exact hv ▸ List.getElem_mem hi

theorem count_false_pos (V : List Bool) (i : Nat) (h : V[i]? = some false) :
    0 < V.count false := by
  rw [List.count_pos_iff]
  exact mem_of_getElem?_eq_some _ _ _ h

theorem count_false_set_true (V : List Bool) (i : Nat) (h : V[i]? = some false) :
    (V.set i true).count false + 1 = V.count false := by
  obtain ⟨hi, hv⟩ := List.getElem?_eq_some_iff.mp h
  have hpos := count_false_pos V i h
  rw [List.count_set _ _ _ _ hi, hv]
  simp
  omega

theorem set_true_set_false (V : List Bool) (i : Nat) (h : V[i]? = some false) :
    (V.set i true).set i false = V := by
  rw [List.set_set]
  obtain ⟨hi, hv⟩ := List.getElem?_eq_some_iff.mp h
  apply List.ext_getElem?
  intro k
  rw [List.getElem?_set]
  by_cases hk : i = k
  · subst hk
    simp [hi, h]
  · simp [hk]

theorem toNat_lt_length (g : BoggleGame) (h : WellFormed g) (i : Int) (h0 : 0 ≤ i)
    (h1 : i < g.m_squareSize * g.m_squareSize) : i.toNat < g.m_board.length := by
  have := h.board_len
  omega

theorem WellFormed.setVis {g : BoggleGame} (h : WellFormed g) (i : Nat) (b : Bool) :
    WellFormed { g with m_visited := g.m_visited.set i b } :=
  ⟨h.size_pos, h.board_len, by simpa using h.visited_len, h.labels⟩

theorem setVisited_ok (g : BoggleGame) (h : WellFormed g) (ind : Int) (b : Bool)
    (h0 : 0 ≤ ind) (h1 : ind < g.m_squareSize * g.m_squareSize) :
    setVisited g ind b = .ok { g with m_visited := g.m_visited.set ind.toNat b } := by
  unfold setVisited
  rw [vecSet_ok _ _ _ h0 (by rw [h.visited_len]; exact toNat_lt_length g h ind h0 h1)]
  rfl

theorem pushIfWord_eq (g : BoggleGame) (str : Str) :
    pushIfWord g str = g.withWords
      (if g.m_dict.IsWordValid str && lengthAtLeast str.length g.m_minWordSize then [str]
        else []) := by
  unfold pushIfWord
  split
  · rfl
  · exact (withWords_nil g).symm

/-- The loop over the scanned cells, given what the recursive call does on an unvisited
cell: every call succeeds and pushes what `Pushes` says. -/
theorem scanLoop_spec (call : Int → Str → BoggleGame → Except Fault BoggleGame) (str : Str)
    (g : BoggleGame) (hg : WellFormed g)
    (hcall : ∀ (acc : List Str) (j : Int), 0 ≤ j → j < g.m_squareSize * g.m_squareSize →
      g.m_visited[j.toNat]? = some false →
      ∃ ws, call j str (g.withWords acc) = .ok (g.withWords (acc ++ ws)) ∧
        ∀ w, w ∈ ws ↔
          Pushes g.m_dict g.m_board g.m_squareSize g.m_minWordSize g.m_visited j str w)
    (cs : List Int) (hcs : ∀ j ∈ cs, 0 ≤ j ∧ j < g.m_squareSize * g.m_squareSize)
    (acc : List Str) :
    ∃ ws, cs.foldlM (visitIfUnseen call str) (g.withWords acc) = .ok (g.withWords (acc ++ ws)) ∧
      ∀ w, w ∈ ws ↔ ∃ j ∈ cs, g.m_visited[j.toNat]? = some false ∧
        Pushes g.m_dict g.m_board g.m_squareSize g.m_minWordSize g.m_visited j str w := by
  induction cs generalizing acc with
  | nil =>
    refine ⟨[], ?_, by simp⟩
    simp [List.foldlM, pure, Except.pure]
  | cons j cs ih =>
    have hj := hcs j (List.mem_cons_self _ _)
    have hcs' : ∀ k ∈ cs, 0 ≤ k ∧ k < g.m_squareSize * g.m_squareSize :=
      fun k hk => hcs k (List.mem_cons_of_mem _ hk)
    have hlt : j.toNat < g.m_visited.length := by
      rw [hg.visited_len]; exact toNat_lt_length g hg j hj.1 hj.2
    cases hv : g.m_visited[j.toNat] with
    | true =>
      have hv' : g.m_visited[j.toNat]? = some true := by
        rw [List.getElem?_eq_getElem hlt, hv]
      obtain ⟨ws, hrun, hmem⟩ := ih hcs' acc
      refine ⟨ws, ?_, ?_⟩
      · rw [List.foldlM_cons]
        have : visitIfUnseen call str (g.withWords acc) j = .ok (g.withWords acc) := by
          unfold visitIfUnseen
          have : (g.withWords acc).m_visited = g.m_visited := rfl
          rw [this, vecAt_ok _ _ _ hj.1 hv']
          rfl
        rw [this]
        exact hrun
      · intro w
        rw [hmem]
        constructor
        · rintro ⟨k, hk, h⟩
          exact ⟨k, List.mem_cons_of_mem _ hk, h⟩
        · rintro ⟨k, hk, hkv, h⟩
          rcases List.mem_cons.mp hk with rfl | hk
          · rw [hv'] at hkv; cases hkv
          · exact ⟨k, hk, hkv, h⟩
    | false =>
      have hv' : g.m_visited[j.toNat]? = some false := by
        rw [List.getElem?_eq_getElem hlt, hv]
      obtain ⟨ws1, hrun1, hmem1⟩ := hcall acc j hj.1 hj.2 hv'
      obtain ⟨ws, hrun, hmem⟩ := ih hcs' (acc ++ ws1)
      refine ⟨ws1 ++ ws, ?_, ?_⟩
      · rw [List.foldlM_cons]
        have : visitIfUnseen call str (g.withWords acc) j = .ok (g.withWords (acc ++ ws1)) := by
          unfold visitIfUnseen
          have : (g.withWords acc).m_visited = g.m_visited := rfl
          rw [this, vecAt_ok _ _ _ hj.1 hv']
          exact hrun1
        rw [this, ← List.append_assoc]
        exact hrun
      · intro w
        rw [List.mem_append, hmem1, hmem]
        constructor
        · rintro (h | ⟨k, hk, h⟩)
          · exact ⟨j, List.mem_cons_self _ _, hv', h⟩
          · exact ⟨k, List.mem_cons_of_mem _ hk, h⟩
        · rintro ⟨k, hk, hkv, h⟩
          rcases List.mem_cons.mp hk with rfl | hk
          · exact Or.inl h
          · exact Or.inr ⟨k, hk, hkv, h⟩

theorem ok_bind {α β : Type} (x : α) (f : α → Except Fault β) :
    (Except.ok x >>= f) = f x := rfl

theorem eraseLast_ok (str : Str) (h : str ≠ []) :
    eraseLast str = .ok (str.take (str.length - 1)) := by
  unfold eraseLast
  rw [if_neg]
  exact fun hl => h (List.length_eq_zero.mp hl)

theorem labelAt_ne_nil (g : BoggleGame) (hg : WellFormed g) (ind : Int) (h0 : 0 ≤ ind)
    (h1 : ind < g.m_squareSize * g.m_squareSize) :
    g.m_board[ind.toNat]? = some (labelAt g.m_board ind) ∧ labelAt g.m_board ind ≠ [] := by
  have hlt := toNat_lt_length g hg ind h0 h1
  have hlab : g.m_board[ind.toNat]? = some (labelAt g.m_board ind) := by
    simp [labelAt, List.getD, List.getElem?_eq_getElem hlt]
  exact ⟨hlab, hg.labels _ (mem_of_getElem?_eq_some _ _ _ hlab)⟩

/-- One call of `FindWordsUtil` on an unvisited cell of a well-formed game, with fuel for
the cells still unvisited: it returns, `m_visited` is as before, and `m_words` has grown
by the words `Pushes` describes. -/
theorem FindWordsUtil_spec (fuel : Nat) :
    ∀ (g : BoggleGame), WellFormed g → ∀ (acc : List Str) (ind : Int) (str : Str),
      0 ≤ ind → ind < g.m_squareSize * g.m_squareSize →
      g.m_visited[ind.toNat]? = some false → g.m_visited.count false ≤ fuel →
      ∃ ws, FindWordsUtil fuel ind str (g.withWords acc) = .ok (g.withWords (acc ++ ws)) ∧
        ∀ w, w ∈ ws ↔
          Pushes g.m_dict g.m_board g.m_squareSize g.m_minWordSize g.m_visited ind str w := by
  induction fuel with
  | zero =>
    intro g _ acc ind str _ _ hv hc
    have := count_false_pos _ _ hv
    omega
  | succ fuel ih =>
    intro g hg acc ind str h0 h1 hv hc
    rw [FindWordsUtil]
    by_cases hcan : g.m_dict.CanBeWord str = false
    · refine ⟨[], ?_, ?_⟩
      · have : (g.withWords acc).m_dict = g.m_dict := rfl
        rw [this, if_pos hcan, List.append_nil]
      · intro w
        constructor
        · intro h; cases h
        · intro h
          cases h <;> simp_all
    · have hcan' : g.m_dict.CanBeWord str = true := by simpa using hcan
      obtain ⟨hlab, hne⟩ := labelAt_ne_nil g hg ind h0 h1
      have hsz : g.m_squareSize ≠ 0 := by have := hg.size_pos; omega
      have hG1 : WellFormed { g with m_visited := g.m_visited.set ind.toNat true } :=
        hg.setVis _ _
      have hcount : (g.m_visited.set ind.toNat true).count false ≤ fuel := by
        have := count_false_set_true _ _ hv
        omega
      have hstr1 : str ++ labelAt g.m_board ind ≠ [] := by simp [hne]
      obtain ⟨ws, hrun, hmem⟩ := scanLoop_spec (FindWordsUtil fuel)
        (str ++ labelAt g.m_board ind) _ hG1
        (fun acc j hj0 hj1 hjv => ih _ hG1 acc j _ hj0 hj1 hjv hcount)
        (scanIndices g.m_squareSize (ind.tdiv g.m_squareSize) (ind.tmod g.m_squareSize))
        (fun j hj => ((mem_scanIndices_iff _ _ _ hg.size_pos h0).mp hj).1)
        (acc ++ (if g.m_dict.IsWordValid (str ++ labelAt g.m_board ind) &&
            lengthAtLeast (str ++ labelAt g.m_board ind).length g.m_minWordSize
          then [str ++ labelAt g.m_board ind] else []))
      refine ⟨(if g.m_dict.IsWordValid (str ++ labelAt g.m_board ind) &&
            lengthAtLeast (str ++ labelAt g.m_board ind).length g.m_minWordSize
          then [str ++ labelAt g.m_board ind] else []) ++ ws, ?_, ?_⟩
      · have hd : (g.withWords acc).m_dict = g.m_dict := rfl
        rw [hd, if_neg hcan, setVisited_ok _ (hg.withWords acc) _ _ h0 h1, ok_bind]
        have hb : vecAt g.m_board ind = .ok (labelAt g.m_board ind) := vecAt_ok _ _ _ h0 hlab
        simp only [BoggleGame.withWords]
        rw [hb, ok_bind, pushIfWord_eq]
        simp only [BoggleGame.withWords, List.append_assoc]
        rw [if_neg hsz]
        simp only [BoggleGame.withWords, List.append_assoc] at hrun
        rw [hrun, ok_bind, eraseLast_ok _ hstr1, ok_bind]
        unfold setVisited
        rw [vecSet_ok _ _ _ h0 (by
          simp only [List.length_set]
          rw [hg.visited_len]; exact toNat_lt_length g hg ind h0 h1), ok_bind]
        simp only [set_true_set_false _ _ hv]
      · intro w
        rw [List.mem_append, hmem]
        constructor
        · rintro (h | ⟨j, hj, hjv, h⟩)
          · split at h
            · rename_i hc
              rw [Bool.and_eq_true] at hc
              rw [List.mem_singleton] at h
              subst h
              exact Pushes.here _ _ _ hcan' hc.1 hc.2
            · cases h
          · exact Pushes.step _ _ _ j w hcan' hj hjv h
        · intro h
          cases h with
          | here _ _ _ _ hval hlong =>
            left
            rw [if_pos (by rw [Bool.and_eq_true]; exact ⟨hval, hlong⟩)]
            exact List.mem_singleton.mpr rfl
          | step _ _ _ j _ _ hj hjv h =>
            exact Or.inr ⟨j, hj, hjv, h⟩

end Boggle

namespace Boggle

/-! ## From calls to paths -/

theorem labelsAlong_cons (board : List Str) (i : Int) (p : List Int) :
    labelsAlong board (i :: p) = labelAt board i ++ labelsAlong board p := by
  simp [labelsAlong]

theorem labelsAlong_nil (board : List Str) : labelsAlong board [] = [] := rfl

theorem getElem?_set_true_eq_false (V : List Bool) (i j : Nat) :
    (V.set i true)[j]? = some false ↔ i ≠ j ∧ V[j]? = some false := by
  rw [List.getElem?_set]
  by_cases h : i = j
  · subst h
    by_cases hl : i < V.length <;> simp [hl]
  · simp [h]

theorem toNat_ne_iff (a b : Int) (ha : 0 ≤ a) (hb : 0 ≤ b) : a.toNat ≠ b.toNat ↔ a ≠ b := by
  omega

/-- A pushed word is spelt along a simple path of unvisited cells that starts at the cell
of the call, and every strict prefix of the spelling passed `CanBeWord`. -/
theorem Pushes.path {d : Dictionary} {board : List Str} {size minLen : Int} {V : List Bool}
    {ind : Int} {str w : Str} (h : Pushes d board size minLen V ind str w)
    (hsize : 1 ≤ size) (h0 : 0 ≤ ind) :
    ∃ q : List Int, (ind :: q).Chain' (adjacent8 size) ∧ (ind :: q).Nodup ∧
      (∀ i ∈ q, (0 ≤ i ∧ i < size * size) ∧ V[i.toNat]? = some false) ∧
      w = str ++ labelsAlong board (ind :: q) ∧ d.IsWordValid w = true ∧
      lengthAtLeast w.length minLen = true ∧
      ∀ k, k ≤ q.length → d.CanBeWord (str ++ labelsAlong board ((ind :: q).take k)) = true := by
  induction h with
  | here V ind str hcan hval hlong =>
    refine ⟨[], by simp, by simp, by simp, by simp [labelsAlong_cons, labelsAlong_nil],
      hval, hlong, ?_⟩
    intro k hk
    have : k = 0 := by simpa using hk
    subst this
    simpa [labelsAlong_nil] using hcan
  | step V ind str j w hcan hj hjv _ ih =>
    have hjs := (mem_scanIndices_iff _ _ _ hsize h0).mp hj
    obtain ⟨q, hchain, hnodup, hq, hw, hval, hlong, hpre⟩ := ih hjs.1.1
    have hjv' := (getElem?_set_true_eq_false _ _ _).mp hjv
    have hne : ind ≠ j := (toNat_ne_iff _ _ h0 hjs.1.1).mp hjv'.1
    refine ⟨j :: q, ?_, ?_, ?_, ?_, hval, hlong, ?_⟩
    · refine List.chain'_cons.mpr ⟨⟨hne, ?_, ?_⟩, hchain⟩
      · have := hjs.2.1; omega
      · have := hjs.2.2; omega
    · refine List.nodup_cons.mpr ⟨?_, hnodup⟩
      intro hmem
      rcases List.mem_cons.mp hmem with h | h
      · exact hne h
      · have := (getElem?_set_true_eq_false _ _ _).mp (hq ind h).2
        exact this.1 rfl
    · intro i hi
      rcases List.mem_cons.mp hi with rfl | hi
      · exact ⟨hjs.1, hjv'.2⟩
      · exact ⟨(hq i hi).1, ((getElem?_set_true_eq_false _ _ _).mp (hq i hi).2).2⟩
    · rw [hw, labelsAlong_cons board ind, List.append_assoc]
    · intro k hk
      cases k with
      | zero => simpa [labelsAlong_nil] using hcan
      | succ k =>
        have := hpre k (by simpa using hk)
        rw [List.take_succ_cons, labelsAlong_cons board ind, ← List.append_assoc]
        exact this

/-- Every spelling along a simple path of unvisited cells whose strict prefixes pass
`CanBeWord` is pushed by the call at the first cell of the path. -/
theorem Pushes.of_path (d : Dictionary) (board : List Str) (size minLen : Int)
    (hsize : 1 ≤ size) (q : List Int) :
    ∀ (V : List Bool) (ind : Int) (str : Str), 0 ≤ ind →
      (ind :: q).Chain' (adjacent8 size) → (ind :: q).Nodup →
      (∀ i ∈ q, (0 ≤ i ∧ i < size * size) ∧ V[i.toNat]? = some false) →
      d.IsWordValid (str ++ labelsAlong board (ind :: q)) = true →
      lengthAtLeast (str ++ labelsAlong board (ind :: q)).length minLen = true →
      (∀ k, k ≤ q.length →
        d.CanBeWord (str ++ labelsAlong board ((ind :: q).take k)) = true) →
      Pushes d board size minLen V ind str (str ++ labelsAlong board (ind :: q)) := by
  induction q with
  | nil =>
    intro V ind str _ _ _ _ hval hlong hpre
    have hcan := hpre 0 (Nat.le_refl _)
    simp only [List.take_zero, labelsAlong_nil, List.append_nil] at hcan
    have hl : labelsAlong board [ind] = labelAt board ind := by
      simp [labelsAlong_cons, labelsAlong_nil]
    rw [hl] at hval hlong ⊢
    exact Pushes.here V ind str hcan hval hlong
  | cons j q ih =>
    intro V ind str h0 hchain hnodup hq hval hlong hpre
    have hcan := hpre 0 (Nat.zero_le _)
    simp only [List.take_zero, labelsAlong_nil, List.append_nil] at hcan
    obtain ⟨hadj, hchain'⟩ := List.chain'_cons.mp hchain
    obtain ⟨hnot, hnodup'⟩ := List.nodup_cons.mp hnodup
    have hjq := hq j (List.mem_cons_self _ _)
    have hne : ind ≠ j := fun h => hnot (h ▸ List.mem_cons_self _ _)
    have hscan : j ∈ scanIndices size (ind.tdiv size) (ind.tmod size) := by
      rw [mem_scanIndices_iff _ _ _ hsize h0]
      refine ⟨hjq.1, ?_, ?_⟩
      · have := hadj.2.1; omega
      · have := hadj.2.2; omega
    have hjv : (V.set ind.toNat true)[j.toNat]? = some false :=
      (getElem?_set_true_eq_false _ _ _).mpr
        ⟨(toNat_ne_iff _ _ h0 hjq.1.1).mpr hne, hjq.2⟩
    rw [labelsAlong_cons board ind, ← List.append_assoc] at hval hlong ⊢
    refine Pushes.step V ind str j _ hcan hscan hjv
      (ih (V.set ind.toNat true) j (str ++ labelAt board ind) hjq.1.1 hchain' hnodup' ?_
        hval hlong ?_)
    · intro i hi
      have hiq := hq i (List.mem_cons_of_mem _ hi)
      have hie : ind ≠ i := fun h => hnot (h ▸ List.mem_cons_of_mem _ hi)
      exact ⟨hiq.1, (getElem?_set_true_eq_false _ _ _).mpr
        ⟨(toNat_ne_iff _ _ h0 hiq.1.1).mpr hie, hiq.2⟩⟩
    · intro k hk
      have := hpre (k + 1) (by simpa using hk)
      rw [List.take_succ_cons, labelsAlong_cons board ind, ← List.append_assoc] at this
      exact this

end Boggle

namespace Boggle

/-! ## The whole search -/

theorem searchLoop_spec (g : BoggleGame) (hg : WellFormed g)
    (hfalse : ∀ i, i < g.m_board.length → g.m_visited[i]? = some false) (cells : List Nat)
    (hcells : ∀ i ∈ cells, i < g.m_board.length) (acc : List Str) :
    ∃ ws, cells.foldlM
        (fun gs (i : Nat) => FindWordsUtil (gs.m_visited.length + 1) (i : Int) [] gs)
        (g.withWords acc)
          = .ok (g.withWords (acc ++ ws)) ∧
      ∀ w, w ∈ ws ↔ ∃ i ∈ cells,
        Pushes g.m_dict g.m_board g.m_squareSize g.m_minWordSize g.m_visited (i : Int) [] w := by
  induction cells generalizing acc with
  | nil =>
    refine ⟨[], ?_, by simp⟩
    simp [List.foldlM, pure, Except.pure]
  | cons i cells ih =>
    have hi := hcells i (List.mem_cons_self _ _)
    have hi1 : (i : Int) < g.m_squareSize * g.m_squareSize := by
      have := hg.board_len
      omega
    have hfuel : g.m_visited.count false ≤ g.m_visited.length + 1 :=
      Nat.le_succ_of_le (List.count_le_length _ _)
    obtain ⟨ws1, hrun1, hmem1⟩ := FindWordsUtil_spec (g.m_visited.length + 1) g hg acc
      (i : Int) [] (by omega) hi1 (by simpa using hfalse i hi) hfuel
    obtain ⟨ws, hrun, hmem⟩ := ih (fun k hk => hcells k (List.mem_cons_of_mem _ hk)) (acc ++ ws1)
    refine ⟨ws1 ++ ws, ?_, ?_⟩
    · rw [List.foldlM_cons]
      have hl : (g.withWords acc).m_visited.length = g.m_visited.length := rfl
      rw [hl, hrun1, ok_bind, ← List.append_assoc]
      exact hrun
    · intro w
      rw [List.mem_append, hmem1, hmem]
      simp only [List.mem_cons, exists_eq_or_imp]

theorem searchAll_spec (g : BoggleGame) (hg : WellFormed g)
    (hfalse : ∀ i, i < g.m_board.length → g.m_visited[i]? = some false) :
    ∃ ws, searchAll g = .ok (g.withWords ws) ∧
      ∀ w, w ∈ ws ↔ ∃ i, i < g.m_board.length ∧
        Pushes g.m_dict g.m_board g.m_squareSize g.m_minWordSize g.m_visited (i : Int) [] w := by
  obtain ⟨ws, hrun, hmem⟩ := searchLoop_spec g hg hfalse (List.range g.m_board.length)
    (fun i hi => List.mem_range.mp hi) []
  refine ⟨ws, ?_, ?_⟩
  · unfold searchAll
    rw [withWords_nil] at hrun
    simpa using hrun
  · intro w
    rw [hmem]
    simp only [List.mem_range]

theorem WellFormed.new (size wordSize : Int) (file : Option (List Str)) (board : List Str)
    (hsize : 1 ≤ size) (hboard : (board.length : Int) = size * size)
    (hlabels : ∀ l ∈ board, l ≠ []) :
    WellFormed (BoggleGame.new size wordSize file board) :=
  ⟨hsize, hboard, by simp [BoggleGame.new], hlabels⟩

theorem new_visited_false (size wordSize : Int) (file : Option (List Str)) (board : List Str)
    (i : Nat) (hi : i < board.length) :
    (BoggleGame.new size wordSize file board).m_visited[i]? = some false := by
  simp [BoggleGame.new, List.getElem?_replicate, hi]

theorem labelsAlong_take_initial_segment (board : List Str) (p : List Int) (k : Nat) :
    labelsAlong board (p.take k) <+: labelsAlong board p := by
  refine ⟨labelsAlong board (p.drop k), ?_⟩
  unfold labelsAlong
  rw [← List.flatten_append, ← List.map_append, List.take_append_drop]

/-- The words the search of a freshly constructed, well-formed game collects: the
spellings of simple paths that are dictionary words of at least the minimum length. -/
theorem searchAll_new (size wordSize : Int) (file : Option (List Str)) (board : List Str)
    (hsize : 1 ≤ size) (hmin : 1 ≤ wordSize) (hboard : (board.length : Int) = size * size)
    (hlabels : ∀ l ∈ board, l ≠ []) :
    ∃ ws, searchAll (BoggleGame.new size wordSize file board)
        = .ok ((BoggleGame.new size wordSize file board).withWords ws) ∧
      ∀ s, s ∈ ws ↔ (∃ p, IsSimplePath size p ∧ s = labelsAlong board p) ∧
        (Dictionary.fresh.LoadDictionary file).2.IsWordValid s = true ∧
        wordSize ≤ (s.length : Int) := by
  have hg := WellFormed.new size wordSize file board hsize hboard hlabels
  obtain ⟨ws, hrun, hmem⟩ := searchAll_spec _ hg
    (fun i hi => new_visited_false size wordSize file board i hi)
  refine ⟨ws, hrun, ?_⟩
  intro s
  rw [hmem]
  constructor
  · rintro ⟨i, hi, hp⟩
    have hi' : i < board.length := hi
    obtain ⟨q, hchain, hnodup, hq, hw, hval, hlong, _⟩ := hp.path hsize (by omega)
    refine ⟨⟨(i : Int) :: q, ⟨by simp, hnodup, ?_, hchain⟩, by simpa using hw⟩, hval, ?_⟩
    · intro k hk
      rcases List.mem_cons.mp hk with rfl | hk
      · omega
      · exact (hq k hk).1
    · unfold lengthAtLeast at hlong
      have := of_decide_eq_true hlong
      exact this.2
  · rintro ⟨⟨p, ⟨hne, hnodup, hin, hchain⟩, rfl⟩, hval, hlong⟩
    cases p with
    | nil => exact absurd rfl hne
    | cons ind q =>
      have hind := hin ind (List.mem_cons_self _ _)
      have hlt : ind.toNat < board.length := by omega
      refine ⟨ind.toNat, hlt, ?_⟩
      have hcast : ((ind.toNat : Nat) : Int) = ind := Int.toNat_of_nonneg hind.1
      rw [hcast]
      have key := Pushes.of_path (Dictionary.fresh.LoadDictionary file).2 board size wordSize
        hsize q (List.replicate board.length false) ind [] hind.1 hchain hnodup ?_
        (by simpa using hval) ?_ ?_
      · simpa using key
      · intro i hi
        have hi' := hin i (List.mem_cons_of_mem _ hi)
        refine ⟨hi', ?_⟩
        rw [List.getElem?_replicate, if_pos (by omega)]
      · unfold lengthAtLeast
        apply decide_eq_true
        refine ⟨by omega, ?_⟩
        simpa using hlong
      · intro k _
        rw [List.nil_append]
        exact CanBeWord_of_initial_segment file _ _ hval (labelsAlong_take_initial_segment board _ k)

theorem FindWords_words_of_searchAll (S : StdSort) (g g1 : BoggleGame)
    (h : searchAll g = .ok g1) :
    FindWords S g = .ok (ScoreWords (RemoveDuplicates (SortWords S g1))) ∧
      ∀ s, s ∈ (ScoreWords (RemoveDuplicates (SortWords S g1))).m_words ↔ s ∈ g1.m_words := by
  refine ⟨?_, ?_⟩
  · unfold FindWords
    rw [h, ok_bind]
  · intro s
    rw [ScoreWords_words]
    show s ∈ removeDuplicatesList (S.run g1.m_words) ↔ _
    rw [mem_removeDuplicatesList, (S.perm _).mem_iff]

end Boggle

namespace Boggle

/-! ## The claims -/

/-- C1. For every side `size ≥ 1`, minimum length `≥ 1`, dictionary file and board of
`size * size` non-empty labels, `FindWords` on the freshly constructed game returns, and
the words in `m_words` afterwards are exactly the strings that are the concatenation of
the cell labels along some non-empty simple path of 8-adjacent in-bounds cells, that
`IsWordValid` accepts and whose length is at least the minimum: pruning by `CanBeWord`
loses nothing an enumeration of all simple paths would find. -/
theorem FindWords_finds_exactly_path_words (S : StdSort) (size minWordLength : Int)
    (file : Option (List Str)) (board : List Str) (hsize : 1 ≤ size)
    (hmin : 1 ≤ minWordLength) (hboard : (board.length : Int) = size * size)
    (hlabels : ∀ l ∈ board, l ≠ []) :
    ∃ g', FindWords S (BoggleGame.new size minWordLength file board) = .ok g' ∧
      ∀ s, s ∈ g'.m_words ↔
        (∃ p, IsSimplePath size p ∧ s = labelsAlong board p) ∧
        (BoggleGame.new size minWordLength file board).m_dict.IsWordValid s = true ∧
        minWordLength ≤ (s.length : Int) := by
  obtain ⟨ws, hrun, hmem⟩ := searchAll_new size minWordLength file board hsize hmin hboard hlabels
  obtain ⟨hfind, hwords⟩ := FindWords_words_of_searchAll S _ _ hrun
  refine ⟨_, hfind, ?_⟩
  intro s
  rw [hwords]
  have hw : ((BoggleGame.new size minWordLength file board).withWords ws).m_words = ws := by
    simp [BoggleGame.withWords, BoggleGame.new]
  rw [hw]
  exact hmem s

theorem FindWords_finds_exactly_path_words_witness :
    ∃ g', FindWords stableSort (BoggleGame.new 2 3 (some ["ABD".toList])
        ["A".toList, "B".toList, "C".toList, "D".toList]) = .ok g' ∧
      ∀ s, s ∈ g'.m_words ↔
        (∃ p, IsSimplePath 2 p ∧
          s = labelsAlong ["A".toList, "B".toList, "C".toList, "D".toList] p) ∧
        (BoggleGame.new 2 3 (some ["ABD".toList])
          ["A".toList, "B".toList, "C".toList, "D".toList]).m_dict.IsWordValid s = true ∧
        (3 : Int) ≤ (s.length : Int) :=
  FindWords_finds_exactly_path_words stableSort 2 3 (some ["ABD".toList])
    ["A".toList, "B".toList, "C".toList, "D".toList] (by decide) (by decide) (by decide)
    (by decide)

/-- C2, as the specification states it, fails: in the scenario of the specification the
word `ABD` is stored with score 1 and the total is 1, not 0, and the stored scores are not
the entries of the table `1:0, 2:0, 3:0, 4:1, 5:1, 6:2, 7:3, 8:11`. -/
theorem FindWords_score_counterexample :
    ∃ g', FindWords stableSort scenarioGame = .ok g' ∧ g'.m_words = ["ABD".toList] ∧
      g'.m_wordScores = [1] ∧ g'.m_totalScore = 1 ∧
      g'.m_wordScores ≠ g'.m_words.map (fun w => specScoreTable (min w.length 8)) :=
  ⟨_, rfl, rfl, rfl, rfl, by decide⟩

/-- C2, amended. For every word retained by `FindWords`, the score stored with it is the
entry of the table `0:0, 1:0, 2:0, 3:1, 4:1, 5:2, 6:3, 7:5, 8:11` at `min(length, 8)`; in
particular a word of length 3 scores 1, and in the scenario of the specification the
result is `ABD` with score 1 and total score 1, whatever `std::sort` does. -/
theorem FindWords_scores_by_scoreCard :
    (∀ (S : StdSort) (g g' : BoggleGame), FindWords S g = .ok g' →
      g'.m_wordScores = g'.m_words.map (fun w => boggleScoreTable (min w.length 8))) ∧
    (∀ S : StdSort, ∃ g', FindWords S scenarioGame = .ok g' ∧ g'.m_words = ["ABD".toList] ∧
      g'.m_wordScores = [1] ∧ g'.m_totalScore = 1) := by
  constructor
  · intro S g g' h
    obtain ⟨g1, _, rfl⟩ := FindWords_eq_ok S g g' h
    rw [ScoreWords_wordScores, ScoreWords_words]
    exact List.map_congr_left (fun w _ => wordScore_eq_table w)
  · intro S
    have hs : searchAll scenarioGame = .ok (scenarioGame.withWords ["ABD".toList]) := rfl
    have hrun : S.run ["ABD".toList] = ["ABD".toList] := List.perm_singleton.mp (S.perm _)
    refine ⟨_, (FindWords_words_of_searchAll S _ _ hs).1, ?_, ?_, ?_⟩
    · show removeDuplicatesList (S.run ["ABD".toList]) = _
      rw [hrun]; rfl
    · rw [ScoreWords_wordScores]
      show (removeDuplicatesList (S.run ["ABD".toList])).map wordScore = _
      rw [hrun]; rfl
    · rw [ScoreWords_totalScore]
      show ((removeDuplicatesList (S.run ["ABD".toList])).map wordScore).sum = _
      rw [hrun]; rfl

theorem FindWords_scores_by_scoreCard_witness :
    ∃ g', FindWords stableSort twoWordGame = .ok g' ∧
      g'.m_wordScores = g'.m_words.map (fun w => boggleScoreTable (min w.length 8)) :=
  ⟨_, rfl, FindWords_scores_by_scoreCard.1 stableSort twoWordGame _ rfl⟩

/-- C3, as the specification states it, fails: in `twoWordGame` the search discovers
`AB, BA, BA, AB`; `FindWords` leaves `BA, AB`, while keeping first occurrences of the
length-sorted discovery list gives `AB, BA`. -/
theorem RemoveDuplicates_first_occurrence_counterexample :
    ∃ g1 g', searchAll twoWordGame = .ok g1 ∧ FindWords stableSort twoWordGame = .ok g' ∧
      g1.m_words = ["AB".toList, "BA".toList, "BA".toList, "AB".toList] ∧
      g'.m_words = ["BA".toList, "AB".toList] ∧
      (RemoveDuplicates (SortWords stableSort g1)).m_words = ["BA".toList, "AB".toList] ∧
      keepFirstOccurrences (SortWords stableSort g1).m_words = ["AB".toList, "BA".toList] ∧
      (RemoveDuplicates (SortWords stableSort g1)).m_words
        ≠ keepFirstOccurrences (SortWords stableSort g1).m_words :=
  ⟨_, _, rfl, rfl, rfl, rfl, rfl, rfl, by decide⟩

/-- C3, amended. For every list of words, `RemoveDuplicates` returns the list obtained by
keeping only the last occurrence of each distinct string and dropping every earlier
occurrence, the kept entries in their original relative order; so after `FindWords`,
`m_words` is the last-occurrence de-duplication of the length-sorted discovery list. -/
theorem RemoveDuplicates_keeps_last_occurrences :
    (∀ g : BoggleGame, (RemoveDuplicates g).m_words = keepLastOccurrences g.m_words) ∧
    (∀ (S : StdSort) (g g1 : BoggleGame), searchAll g = .ok g1 →
      ∃ g', FindWords S g = .ok g' ∧ g'.m_words = keepLastOccurrences (S.run g1.m_words)) := by
  constructor
  · intro g
    exact removeDuplicatesList_eq_mirror g.m_words
  · intro S g g1 h
    exact ⟨_, (FindWords_words_of_searchAll S g g1 h).1,
      removeDuplicatesList_eq_mirror (S.run g1.m_words)⟩

theorem RemoveDuplicates_keeps_last_occurrences_witness :
    ∃ g', FindWords stableSort twoWordGame = .ok g' ∧
      g'.m_words = keepLastOccurrences (stableSort.run
        ["AB".toList, "BA".toList, "BA".toList, "AB".toList]) :=
  RemoveDuplicates_keeps_last_occurrences.2 stableSort twoWordGame
    (twoWordGame.withWords ["AB".toList, "BA".toList, "BA".toList, "AB".toList]) rfl

/-- C4. Whenever `FindWords` completes, the resulting `m_words` holds no string twice: no
two positions `i ≠ j` hold equal strings. -/
theorem FindWords_no_duplicates (S : StdSort) (g g' : BoggleGame)
    (h : FindWords S g = .ok g') :
    ∀ i j : Fin g'.m_words.length, i ≠ j → g'.m_words.get i ≠ g'.m_words.get j := by
  obtain ⟨g1, _, rfl⟩ := FindWords_eq_ok S g g' h
  have hnd : (removeDuplicatesList (S.run g1.m_words)).Nodup := removeDuplicatesList_nodup _
  intro i j hij heq
  exact hij (List.nodup_iff_injective_get.mp hnd heq)

theorem FindWords_no_duplicates_witness :
    ∃ g', FindWords stableSort twoWordGame = .ok g' ∧
      g'.m_words = ["BA".toList, "AB".toList] ∧
      ∀ i j : Fin g'.m_words.length, i ≠ j → g'.m_words.get i ≠ g'.m_words.get j :=
  ⟨_, rfl, rfl, FindWords_no_duplicates stableSort twoWordGame _ rfl⟩

/-- C5. Whenever `FindWords` completes, the final `m_words` is non-increasing in string
length: for all positions `i < j`, `length(m_words[i]) ≥ length(m_words[j])`. -/
theorem FindWords_sorted_by_length (S : StdSort) (g g' : BoggleGame)
    (h : FindWords S g = .ok g') :
    ∀ i j : Fin g'.m_words.length, i < j →
      (g'.m_words.get i).length ≥ (g'.m_words.get j).length := by
  obtain ⟨g1, _, rfl⟩ := FindWords_eq_ok S g g' h
  have hs : (removeDuplicatesList (S.run g1.m_words)).Pairwise
      (fun a b => ¬ (b.length > a.length)) :=
    (S.sorted g1.m_words).sublist (removeDuplicatesList_sublist _)
  intro i j hij
  have := List.pairwise_iff_get.mp hs i j hij
  exact Nat.le_of_not_lt this

theorem FindWords_sorted_by_length_witness :
    ∃ g', FindWords stableSort threeByThreeGame = .ok g' ∧
      g'.m_words = ["ABCFI".toList, "GQUI".toList, "AEI".toList, "GEC".toList, "AB".toList,
        "BA".toList] ∧
      ∀ i j : Fin g'.m_words.length, i < j →
        (g'.m_words.get i).length ≥ (g'.m_words.get j).length :=
  ⟨_, rfl, rfl, FindWords_sorted_by_length stableSort threeByThreeGame _ rfl⟩

end Boggle

namespace Boggle

theorem wordScore_eq_scoreCard (w : Str) :
    wordScore w = scoreCard.getD (min w.length 8) 0 := by
  unfold wordScore
  by_cases h : w.length > 8
  · have h8 : min w.length 8 = 8 := by omega
    rw [if_pos h, h8]
  · have hm : min w.length 8 = w.length := by omega
    rw [if_neg h, hm]

theorem scores_consistent (ws : List Str) (g : BoggleGame) (hw : g.m_words = ws)
    (hs : g.m_wordScores = ws.map wordScore) (ht : g.m_totalScore = (ws.map wordScore).sum) :
    g.m_wordScores.length = g.m_words.length ∧
      (∀ i : Fin g.m_words.length,
        g.m_wordScores[i.val]? = some (scoreCard.getD (min (g.m_words.get i).length 8) 0)) ∧
      g.m_totalScore = g.m_wordScores.sum := by
  subst hw
  refine ⟨by rw [hs, List.length_map], ?_, by rw [ht, hs]⟩
  intro i
  rw [hs, List.getElem?_map, List.getElem?_eq_getElem i.isLt, Option.map_some',
    wordScore_eq_scoreCard]
  rfl

/-- C6. After `ScoreWords`, and hence after `FindWords`, `m_wordScores` has the length of
`m_words`, `m_wordScores[i]` is the entry of the score table `scoreCard` at
`min(length(m_words[i]), 8)` for every `i`, and `m_totalScore` is the sum of the entries of
`m_wordScores`. -/
theorem ScoreWords_scores_and_total (S : StdSort) (g : BoggleGame) :
    ((ScoreWords g).m_wordScores.length = (ScoreWords g).m_words.length ∧
      (∀ i : Fin (ScoreWords g).m_words.length,
        (ScoreWords g).m_wordScores[i.val]? =
          some (scoreCard.getD (min ((ScoreWords g).m_words.get i).length 8) 0)) ∧
      (ScoreWords g).m_totalScore = (ScoreWords g).m_wordScores.sum) ∧
    (∀ g', FindWords S g = .ok g' →
      g'.m_wordScores.length = g'.m_words.length ∧
      (∀ i : Fin g'.m_words.length,
        g'.m_wordScores[i.val]? = some (scoreCard.getD (min (g'.m_words.get i).length 8) 0)) ∧
      g'.m_totalScore = g'.m_wordScores.sum) := by
  constructor
  · exact scores_consistent g.m_words (ScoreWords g) rfl (ScoreWords_wordScores g)
      (ScoreWords_totalScore g)
  · intro g' h
    obtain ⟨g1, _, rfl⟩ := FindWords_eq_ok S g g' h
    exact scores_consistent _ (ScoreWords (RemoveDuplicates (SortWords S g1))) rfl
      (ScoreWords_wordScores _) (ScoreWords_totalScore _)

theorem ScoreWords_scores_and_total_witness :
    ∃ g', FindWords stableSort twoWordGame = .ok g' ∧
      g'.m_wordScores.length = g'.m_words.length ∧
      (∀ i : Fin g'.m_words.length,
        g'.m_wordScores[i.val]? = some (scoreCard.getD (min (g'.m_words.get i).length 8) 0)) ∧
      g'.m_totalScore = g'.m_wordScores.sum :=
  ⟨_, rfl, (ScoreWords_scores_and_total stableSort twoWordGame).2 _ rfl⟩

/-- C7. For every list of lines loaded into a fresh `Dictionary` and every string `s`:
`IsWordValid(s)` holds iff `s` is one of the lines, and `CanBeWord(s)` holds iff `s` is
empty or a non-empty prefix (the whole word included) of some line; an empty file gives
no words and the one prefix `""`. -/
theorem LoadDictionary_queries (lines : List Str) (s : Str) :
    ((Dictionary.fresh.LoadDictionary (some lines)).2.IsWordValid s = true ↔ s ∈ lines) ∧
    ((Dictionary.fresh.LoadDictionary (some lines)).2.CanBeWord s = true ↔
      s = [] ∨ (s ≠ [] ∧ ∃ l ∈ lines, ∃ n, 1 ≤ n ∧ n ≤ l.length ∧ s = l.take n)) ∧
    (Dictionary.fresh.LoadDictionary (some [])).2 = ⟨[], [[]]⟩ := by
  refine ⟨IsWordValid_load (some lines) s, ?_, rfl⟩
  rw [CanBeWord_load]
  simp only [linesOf]
  constructor
  · rintro (h | ⟨l, hl, hs, hp⟩)
    · exact Or.inl h
    · obtain ⟨k, hk, hk'⟩ := (exists_take_iff_initial_segment l s).mpr ⟨hs, hp⟩
      exact Or.inr ⟨hs, l, hl, k + 1, by omega, by omega, hk'⟩
  · rintro (h | ⟨hs, l, hl, n, hn1, hn2, rfl⟩)
    · exact Or.inl h
    · exact Or.inr ⟨l, hl, hs, List.take_prefix _ _⟩

/-- C8. For every dictionary built by `LoadDictionary` and all strings `s`, `t`: when
`CanBeWord(s)` is false, `IsWordValid(s ++ t)` is false and `CanBeWord(s ++ t)` is false
as well, so no word is lost by stopping the search at `s`. -/
theorem CanBeWord_false_closes_branch (file : Option (List Str)) (s t : Str)
    (h : (Dictionary.fresh.LoadDictionary file).2.CanBeWord s = false) :
    (Dictionary.fresh.LoadDictionary file).2.IsWordValid (s ++ t) = false ∧
      (Dictionary.fresh.LoadDictionary file).2.CanBeWord (s ++ t) = false := by
  have hs : ¬ ((Dictionary.fresh.LoadDictionary file).2.CanBeWord s = true) := by
    rw [h]; exact Bool.false_ne_true
  constructor
  · apply Bool.eq_false_iff.mpr
    intro hv
    exact hs (CanBeWord_of_initial_segment file s (s ++ t) hv (List.prefix_append s t))
  · apply Bool.eq_false_iff.mpr
    intro hc
    apply hs
    rw [CanBeWord_load] at hc ⊢
    by_cases hnil : s = []
    · exact Or.inl hnil
    · rcases hc with hc | ⟨l, hl, _, hp⟩
      · exact absurd (List.append_eq_nil.mp hc).1 hnil
      · exact Or.inr ⟨l, hl, hnil, (List.prefix_append s t).trans hp⟩

theorem CanBeWord_false_closes_branch_witness :
    (Dictionary.fresh.LoadDictionary (some ["ABD".toList])).2.CanBeWord "AD".toList = false ∧
      (Dictionary.fresh.LoadDictionary (some ["ABD".toList])).2.IsWordValid
        ("AD".toList ++ "B".toList) = false ∧
      (Dictionary.fresh.LoadDictionary (some ["ABD".toList])).2.CanBeWord
        ("AD".toList ++ "B".toList) = false :=
  ⟨by decide, CanBeWord_false_closes_branch (some ["ABD".toList]) "AD".toList "B".toList
    (by decide)⟩

/-- C9, on the code: `LoadDictionary` returns `ERR::OK` for every file, also for one that
cannot be opened, which it treats as a file without lines: no words, the one prefix
`""`. -/
theorem LoadDictionary_unopened_returns_OK :
    Dictionary.fresh.LoadDictionary none = (ERR.OK, ⟨[], [[]]⟩) ∧
      ∀ (d : Dictionary) (file : Option (List Str)), (d.LoadDictionary file).1 = ERR.OK :=
  ⟨rfl, fun _ _ => rfl⟩

/-- C10, on the code: on the board `A`, `""`, `C`, `D` of side 2 (the tokens of the input
line `A  C D`), `FindWords` does not return: the call for the cell with the empty label
reaches `str.erase(str.length() - 1)` with `str` empty, which throws
`std::out_of_range`. -/
theorem FindWords_empty_label_faults :
    ∀ S : StdSort, FindWords S emptyLabelGame = .error Fault.eraseOutOfRange :=
  fun _ => rfl

end Boggle

namespace Boggle

/-! ## Further facts about the search -/

theorem Pushes.valid {d : Dictionary} {board : List Str} {size minLen : Int} {V : List Bool}
    {ind : Int} {str w : Str} (h : Pushes d board size minLen V ind str w) :
    d.IsWordValid w = true := by
  induction h with
  | here _ _ _ _ hval _ => exact hval
  | step _ _ _ _ _ _ _ _ _ ih => exact ih

theorem Pushes.canBeWord {d : Dictionary} {board : List Str} {size minLen : Int}
    {V : List Bool} {ind : Int} {str w : Str} (h : Pushes d board size minLen V ind str w) :
    d.CanBeWord str = true := by
  cases h with
  | here _ _ _ hcan _ _ => exact hcan
  | step _ _ _ _ _ hcan _ _ _ => exact hcan

theorem StdSort.run_nil (S : StdSort) : S.run [] = [] :=
  List.Perm.eq_nil (S.perm [])

/-- A well-formed game keeps its shape through `FindWords`: only `m_words`, `m_wordScores`
and `m_totalScore` are written. -/
theorem FindWords_of_searchAll_withWords (S : StdSort) (g : BoggleGame) (ws : List Str)
    (h : searchAll g = .ok (g.withWords ws)) :
    FindWords S g = .ok (ScoreWords (RemoveDuplicates (SortWords S (g.withWords ws)))) ∧
      (ScoreWords (RemoveDuplicates (SortWords S (g.withWords ws)))).m_visited = g.m_visited ∧
      (ScoreWords (RemoveDuplicates (SortWords S (g.withWords ws)))).m_board = g.m_board ∧
      (ScoreWords (RemoveDuplicates (SortWords S (g.withWords ws)))).m_dict = g.m_dict ∧
      (ScoreWords (RemoveDuplicates (SortWords S (g.withWords ws)))).m_squareSize
        = g.m_squareSize ∧
      (ScoreWords (RemoveDuplicates (SortWords S (g.withWords ws)))).m_minWordSize
        = g.m_minWordSize ∧
      (ScoreWords (RemoveDuplicates (SortWords S (g.withWords ws)))).m_words
        = removeDuplicatesList (S.run (g.m_words ++ ws)) :=
  ⟨(FindWords_words_of_searchAll S g _ h).1, rfl, rfl, rfl, rfl, rfl, rfl⟩

/-- C11. For the empty lexicon (no words, the one prefix `""`, as `LoadDictionary` builds
it from an empty file) and every board of `size * size` non-empty labels with
`size ≥ 1`, `FindWords` returns with `m_words` empty, `m_wordScores` empty and
`m_totalScore = 0`. -/
theorem FindWords_empty_lexicon (S : StdSort) (size wordSize : Int) (board : List Str)
    (hsize : 1 ≤ size) (hboard : (board.length : Int) = size * size)
    (hlabels : ∀ l ∈ board, l ≠ []) :
    (BoggleGame.new size wordSize (some []) board).m_dict = ⟨[], [[]]⟩ ∧
    ∃ g', FindWords S (BoggleGame.new size wordSize (some []) board) = .ok g' ∧
      g'.m_words = [] ∧ g'.m_wordScores = [] ∧ g'.m_totalScore = 0 := by
  refine ⟨rfl, ?_⟩
  have hg := WellFormed.new size wordSize (some []) board hsize hboard hlabels
  obtain ⟨ws, hrun, hmem⟩ := searchAll_spec _ hg
    (fun i hi => new_visited_false size wordSize (some []) board i hi)
  have hws : ws = [] := by
    rw [List.eq_nil_iff_forall_not_mem]
    intro w hw
    obtain ⟨i, _, hp⟩ := (hmem w).mp hw
    have hv := hp.valid
    simp [BoggleGame.new, Dictionary.LoadDictionary, Dictionary.fresh,
      Dictionary.IsWordValid] at hv
  subst hws
  obtain ⟨hfind, _, _, _, _, _, hwords⟩ := FindWords_of_searchAll_withWords S _ _ hrun
  have hw : (ScoreWords (RemoveDuplicates (SortWords S
      ((BoggleGame.new size wordSize (some []) board).withWords [])))).m_words = [] := by
    rw [hwords]
    simp [BoggleGame.new, S.run_nil, removeDuplicatesList]
  refine ⟨_, hfind, hw, ?_, ?_⟩
  · rw [ScoreWords_wordScores]
    rw [ScoreWords_words] at hw
    rw [hw]; rfl
  · rw [ScoreWords_totalScore]
    rw [ScoreWords_words] at hw
    rw [hw]; rfl

theorem FindWords_empty_lexicon_witness :
    (BoggleGame.new 2 1 (some []) ["A".toList, "B".toList, "C".toList, "D".toList]).m_dict
      = ⟨[], [[]]⟩ ∧
    ∃ g', FindWords stableSort
        (BoggleGame.new 2 1 (some []) ["A".toList, "B".toList, "C".toList, "D".toList])
          = .ok g' ∧
      g'.m_words = [] ∧ g'.m_wordScores = [] ∧ g'.m_totalScore = 0 :=
  FindWords_empty_lexicon stableSort 2 1 ["A".toList, "B".toList, "C".toList, "D".toList]
    (by decide) (by decide) (by decide)

theorem findPos_le_length (word : Str) (l : List Str) : findPos word l ≤ l.length := by
  induction l with
  | nil => simp [findPos]
  | cons w ws ih =>
    unfold findPos
    split
    · omega
    · simp only [List.length_cons]; omega

theorem findPos_ne_length (word : Str) (l : List Str) :
    findPos word l ≠ l.length ↔ word ∈ l := by
  induction l with
  | nil => simp [findPos]
  | cons w ws ih =>
    unfold findPos
    by_cases h : w = word
    · simp [h]
    · have hne : ¬ word = w := fun e => h e.symm
      simp only [h, if_false, List.length_cons, List.mem_cons, hne, false_or]
      rw [← ih]
      omega

/-- C12. `CheckAndLogLegalWord(word)` returns true iff `word` occurs in `m_words`; when it
returns false, the note " in this game, but is a valid word!" is written after
"NO, word is illegal" iff `IsWordValid(word)` holds; the game is left as it was.  In the
specification's scenario, `XYZ` is in the dictionary but not among the words found: the
call returns false and writes the note. -/
theorem CheckAndLogLegalWord_result (g : BoggleGame) (word : Str) :
    ((CheckAndLogLegalWord g word).2.2 = true ↔ word ∈ g.m_words) ∧
    ((CheckAndLogLegalWord g word).2.2 = false →
      ((CheckAndLogLegalWord g word).2.1 =
          ["NO, ".toList, word, " is illegal".toList,
            " in this game, but is a valid word!".toList, "\n".toList]
        ↔ g.m_dict.IsWordValid word = true) ∧
      ((CheckAndLogLegalWord g word).2.1 =
          ["NO, ".toList, word, " is illegal".toList, "\n".toList]
        ↔ g.m_dict.IsWordValid word = false)) ∧
    ((CheckAndLogLegalWord g word).1 = g ∧
      (CheckAndLogLegalWord g word).1.m_words = g.m_words ∧
      (CheckAndLogLegalWord g word).1.m_wordScores = g.m_wordScores ∧
      (CheckAndLogLegalWord g word).1.m_totalScore = g.m_totalScore) ∧
    (∃ g', FindWords stableSort xyzGame = .ok g' ∧ g'.m_words = ["ABD".toList] ∧
      CheckAndLogLegalWord g' "XYZ".toList =
        (g', ["NO, ".toList, "XYZ".toList, " is illegal".toList,
          " in this game, but is a valid word!".toList, "\n".toList], false)) := by
  have hfound : decide (findPos word g.m_words ≠ g.m_words.length) = true
      ↔ word ∈ g.m_words := by
    rw [decide_eq_true_iff]
    exact findPos_ne_length word g.m_words
  refine ⟨hfound, ?_, ⟨rfl, rfl, rfl, rfl⟩, ⟨_, rfl, rfl, rfl⟩⟩
  intro hfalse
  have hnf : decide (findPos word g.m_words ≠ g.m_words.length) = false := hfalse
  unfold CheckAndLogLegalWord
  simp only [hnf]
  cases hv : g.m_dict.IsWordValid word <;> simp

theorem CheckAndLogLegalWord_result_witness :
    (CheckAndLogLegalWord scenarioGame "ABD".toList).2.1 =
        ["NO, ".toList, "ABD".toList, " is illegal".toList,
          " in this game, but is a valid word!".toList, "\n".toList]
      ↔ scenarioGame.m_dict.IsWordValid "ABD".toList = true :=
  ((CheckAndLogLegalWord_result scenarioGame "ABD".toList).2.1 rfl).1

end Boggle

namespace Boggle

theorem all_false_of_cells (g : BoggleGame) (hlen : g.m_visited.length = g.m_board.length)
    (hfalse : ∀ i, i < g.m_board.length → g.m_visited[i]? = some false) :
    ∀ b ∈ g.m_visited, b = false := by
  intro b hb
  obtain ⟨i, hi⟩ := List.mem_iff_getElem?.mp hb
  have hlt : i < g.m_visited.length := by
    obtain ⟨h, _⟩ := List.getElem?_eq_some_iff.mp hi
    exact h
  have := hfalse i (hlen ▸ hlt)
  rw [hi] at this
  exact Option.some.inj this

/-- C13. For every well-formed game whose visited flags are all false before the call,
`FindWords` returns with every entry of `m_visited` false; more generally each call
`FindWordsUtil(ind, str)` made on a cell with `m_visited[ind] = false` returns with
`m_visited` exactly as it was on entry.  The candidate string is passed by value: every
top-level call of the loop of `FindWords` receives the empty string. -/
theorem FindWords_restores_visited :
    (∀ (S : StdSort) (g : BoggleGame), WellFormed g →
      (∀ i, i < g.m_board.length → g.m_visited[i]? = some false) →
      ∃ g', FindWords S g = .ok g' ∧ g'.m_visited = g.m_visited ∧
        ∀ b ∈ g'.m_visited, b = false) ∧
    (∀ (fuel : Nat) (g : BoggleGame) (ind : Int) (str : Str), WellFormed g →
      0 ≤ ind → ind < g.m_squareSize * g.m_squareSize →
      g.m_visited[ind.toNat]? = some false → g.m_visited.count false ≤ fuel →
      ∃ g', FindWordsUtil fuel ind str g = .ok g' ∧ g'.m_visited = g.m_visited) ∧
    (∀ g : BoggleGame, searchAll g = (List.range g.m_board.length).foldlM
      (fun gs (i : Nat) => FindWordsUtil (gs.m_visited.length + 1) (i : Int) [] gs) g) := by
  refine ⟨?_, ?_, fun _ => rfl⟩
  · intro S g hg hfalse
    obtain ⟨ws, hrun, _⟩ := searchAll_spec g hg hfalse
    obtain ⟨hfind, hvis, _⟩ := FindWords_of_searchAll_withWords S g ws hrun
    refine ⟨_, hfind, hvis, ?_⟩
    rw [hvis]
    exact all_false_of_cells g hg.visited_len hfalse
  · intro fuel g ind str hg h0 h1 hv hc
    obtain ⟨ws, hrun, _⟩ := FindWordsUtil_spec fuel g hg [] ind str h0 h1 hv hc
    rw [withWords_nil] at hrun
    exact ⟨_, hrun, rfl⟩

theorem FindWords_restores_visited_witness :
    ∃ g', FindWords stableSort threeByThreeGame = .ok g' ∧
      g'.m_visited = threeByThreeGame.m_visited ∧ ∀ b ∈ g'.m_visited, b = false :=
  FindWords_restores_visited.1 stableSort threeByThreeGame
    ⟨by decide, by decide, by decide, by decide⟩ (by decide)

/-- C14. For every `size ≥ 1` and every cell `ind` in `[0, size * size)`, the indices the
neighbour scan of `FindWordsUtil` reaches, `ind` itself left out, are exactly the cells
`row * size + col` with `row`, `col` in `[0, size)` at Chebyshev distance 1 from
`(ind / size, ind % size)`; for `size = 3` there are 3 of them for a corner cell, 5 for an
edge cell that is not a corner, and 8 for the centre. -/
theorem scan_reaches_chebyshev_neighbours (size ind j : Int) (hsize : 1 ≤ size)
    (h0 : 0 ≤ ind) (h1 : ind < size * size) :
    ((j ∈ scanIndices size (ind.tdiv size) (ind.tmod size) ∧ j ≠ ind) ↔
      ∃ row col, (0 ≤ row ∧ row < size) ∧ (0 ≤ col ∧ col < size) ∧ j = row * size + col ∧
        chebyshev (ind / size) (ind % size) row col = 1) ∧
    (∀ corner ∈ ([0, 2, 6, 8] : List Int),
      ((scanIndices 3 (corner.tdiv 3) (corner.tmod 3)).filter
        (fun k => decide (k ≠ corner))).toFinset.card = 3) ∧
    (∀ edge ∈ ([1, 3, 5, 7] : List Int),
      ((scanIndices 3 (edge.tdiv 3) (edge.tmod 3)).filter
        (fun k => decide (k ≠ edge))).toFinset.card = 5) ∧
    ((scanIndices 3 (Int.tdiv 4 3) (Int.tmod 4 3)).filter
      (fun k => decide (k ≠ 4))).toFinset.card = 8 := by
  refine ⟨?_, by decide, by decide, by decide⟩
  have _hcell : 0 ≤ ind ∧ ind < size * size := ⟨h0, h1⟩
  have hs0 : (0 : Int) ≤ size := by omega
  have hsne : size ≠ 0 := by omega
  have hspos : (0 : Int) < size := by omega
  have hr0 : 0 ≤ ind / size := Int.ediv_nonneg h0 hs0
  have hc0 : 0 ≤ ind % size := Int.emod_nonneg _ hsne
  have hc1 : ind % size < size := Int.emod_lt_of_pos _ hspos
  have hind : (ind / size) * size + ind % size = ind := by
    have := Int.ediv_add_emod ind size
    rw [Int.mul_comm] at this
    exact this
  rw [Int.tdiv_eq_ediv h0 hs0, Int.tmod_eq_emod h0 hs0, mem_scanIndices]
  unfold chebyshev
  constructor
  · rintro ⟨⟨row, col, ⟨hrow, hrs⟩, ⟨hcol, hcs⟩, hr, hc, rfl⟩, hne⟩
    refine ⟨row, col, ⟨hr, hrs⟩, ⟨hc, hcs⟩, rfl, ?_⟩
    by_cases hsame : row = ind / size ∧ col = ind % size
    · exfalso
      apply hne
      rw [hsame.1, hsame.2]
      exact hind
    · omega
  · rintro ⟨row, col, ⟨hr, hrs⟩, ⟨hc, hcs⟩, rfl, hd⟩
    refine ⟨⟨row, col, ⟨by omega, hrs⟩, ⟨by omega, hcs⟩, hr, hc, rfl⟩, ?_⟩
    intro heq
    have hrow : row = ind / size := by
      rw [← heq]; exact (cell_div size row col hcs hc).symm
    have hcol : col = ind % size := by
      rw [← heq]; exact (cell_mod size row col hcs hc).symm
    omega

theorem scan_reaches_chebyshev_neighbours_witness :
    ((1 ∈ scanIndices 3 (Int.tdiv 0 3) (Int.tmod 0 3) ∧ (1 : Int) ≠ 0) ↔
      ∃ row col, (0 ≤ row ∧ row < 3) ∧ (0 ≤ col ∧ col < 3) ∧ (1 : Int) = row * 3 + col ∧
        chebyshev (0 / 3) (0 % 3) row col = 1) :=
  (scan_reaches_chebyshev_neighbours 3 0 1 (by decide) (by decide) (by decide)).1

end Boggle

namespace Boggle

/-! ## More on duplicate removal and sorting -/

theorem keptPositions_cons (x : Str) (xs : List Str) :
    keptPositions (x :: xs) =
      (if x ∈ xs then [] else [0]) ++ (keptPositions xs).map Nat.succ := by
  unfold keptPositions
  rw [List.length_cons, List.range_succ_eq_map, List.filter_cons, List.filter_map]
  have h0 : decide (∀ j, j < xs.length + 1 → 0 < j → (x :: xs)[j]? ≠ (x :: xs)[0]?)
      = decide (x ∉ xs) := by
    apply decide_eq_decide.mpr
    constructor
    · intro h hx
      obtain ⟨k, hk⟩ := List.mem_iff_getElem?.mp hx
      have hlt : k < xs.length := (List.getElem?_eq_some_iff.mp hk).1
      exact h (k + 1) (by omega) (by omega) (by simpa using hk)
    · intro h j _ hj heq
      obtain ⟨k, rfl⟩ : ∃ k, j = k + 1 := ⟨j - 1, by omega⟩
      apply h
      have hk : xs[k]? = some x := by simpa using heq
      exact mem_of_getElem?_eq_some _ _ _ hk
  have hs : ∀ i, ((fun i => decide (∀ j, j < xs.length + 1 → i < j →
        (x :: xs)[j]? ≠ (x :: xs)[i]?)) ∘ Nat.succ) i
      = decide (∀ j, j < xs.length → i < j → xs[j]? ≠ xs[i]?) := by
    intro i
    apply decide_eq_decide.mpr
    constructor
    · intro h j hj hij
      have := h (j + 1) (by omega) (by omega)
      simpa using this
    · intro h j hj hij
      obtain ⟨k, rfl⟩ : ∃ k, j = k + 1 := ⟨j - 1, by omega⟩
      have := h k (by omega) (by omega)
      simpa using this
  rw [h0, List.filter_congr (fun i _ => hs i)]
  by_cases hx : x ∈ xs <;> simp [hx]

theorem removeDuplicatesList_eq_kept (l : List Str) :
    removeDuplicatesList l = (keptPositions l).filterMap (fun i => l[i]?) := by
  induction l with
  | nil => rfl
  | cons x xs ih =>
    rw [keptPositions_cons, List.filterMap_append, List.filterMap_map]
    unfold removeDuplicatesList
    rw [foundDuplicate_eq, ih]
    have hf : (fun i => (x :: xs)[i]?) ∘ Nat.succ = fun i => xs[i]? := by
      funext i
      simp
    rw [hf]
    by_cases hx : x ∈ xs <;> simp [hx]

/-- C19. For every list of words, the output of `RemoveDuplicates` has exactly the
elements of the input (none lost, none invented) and is the subsequence of the input that
keeps, for each distinct string, its last occurrence: the entry at position `i` is kept
iff no position `j > i` holds an equal string. -/
theorem RemoveDuplicates_keeps_entries_without_later_equal (g : BoggleGame) :
    (∀ w, w ∈ (RemoveDuplicates g).m_words ↔ w ∈ g.m_words) ∧
    (RemoveDuplicates g).m_words.Sublist g.m_words ∧
    (RemoveDuplicates g).m_words =
      ((List.range g.m_words.length).filter
        (fun i => decide (∀ j, j < g.m_words.length → i < j →
          g.m_words[j]? ≠ g.m_words[i]?))).filterMap (fun i => g.m_words[i]?) :=
  ⟨mem_removeDuplicatesList g.m_words, removeDuplicatesList_sublist g.m_words,
    removeDuplicatesList_eq_kept g.m_words⟩

/-- A routine that meets the contract of `std::sort` and does not keep the order of
entries of equal length: insertion sort of the reversed input. -/
def mirrorSort : StdSort :=
  ⟨fun l => sortByLength l.reverse,
    fun l => (sortByLength_perm l.reverse).trans (List.reverse_perm l),
    fun l => sortByLength_sorted l.reverse⟩

end Boggle

namespace Boggle

/-! ## Calling `FindWords` again -/

/-- What one run of `FindWords` on a well-formed game with no cell marked leaves: the
game with the old and the newly found words sorted and de-duplicated. -/
theorem FindWords_run (S : StdSort) (g : BoggleGame) (hg : WellFormed g)
    (hfalse : ∀ i, i < g.m_board.length → g.m_visited[i]? = some false) :
    ∃ ws, searchAll g = .ok (g.withWords ws) ∧
      FindWords S g = .ok (ScoreWords (RemoveDuplicates (SortWords S (g.withWords ws)))) ∧
      (∀ w, w ∈ ws ↔ ∃ i, i < g.m_board.length ∧
        Pushes g.m_dict g.m_board g.m_squareSize g.m_minWordSize g.m_visited (i : Int) [] w) ∧
      ∀ w, w ∈ (ScoreWords (RemoveDuplicates (SortWords S (g.withWords ws)))).m_words ↔
        w ∈ g.m_words ∨ w ∈ ws := by
  obtain ⟨ws, hrun, hmem⟩ := searchAll_spec g hg hfalse
  obtain ⟨hfind, hwords⟩ := FindWords_words_of_searchAll S g _ hrun
  refine ⟨ws, hrun, hfind, hmem, ?_⟩
  intro w
  rw [hwords]
  exact List.mem_append

/-- C18. `FindWords` does not clear `m_words` before searching: the second search pushes
its words after the old ones.  Still, calling `FindWords` a second time on the same game
changes neither the set of words in `m_words` nor `m_totalScore`, and `m_words` still has
no duplicates and is non-increasing in length. -/
theorem FindWords_twice (S₁ S₂ : StdSort) (g : BoggleGame) (hg : WellFormed g)
    (hfalse : ∀ i, i < g.m_board.length → g.m_visited[i]? = some false) :
    ∃ g1 g2 ws, FindWords S₁ g = .ok g1 ∧ searchAll g1 = .ok (g1.withWords ws) ∧
      FindWords S₂ g1 = .ok g2 ∧
      (∀ w, w ∈ g2.m_words ↔ w ∈ g1.m_words) ∧
      g2.m_totalScore = g1.m_totalScore ∧
      g2.m_words.Nodup ∧
      (∀ i j : Fin g2.m_words.length, i < j →
        (g2.m_words.get i).length ≥ (g2.m_words.get j).length) := by
  obtain ⟨ws1, _, hfind1, hmem1, hwords1⟩ := FindWords_run S₁ g hg hfalse
  have hg1 : WellFormed (ScoreWords (RemoveDuplicates (SortWords S₁ (g.withWords ws1)))) :=
    ⟨hg.size_pos, hg.board_len, hg.visited_len, hg.labels⟩
  obtain ⟨ws2, hrun2, hfind2, hmem2, hwords2⟩ := FindWords_run S₂ _ hg1 hfalse
  have hsame : ∀ w, w ∈ ws2 ↔ w ∈ ws1 := fun w => (hmem2 w).trans (hmem1 w).symm
  have hset : ∀ w,
      w ∈ (ScoreWords (RemoveDuplicates (SortWords S₂
        ((ScoreWords (RemoveDuplicates (SortWords S₁ (g.withWords ws1)))).withWords
          ws2)))).m_words ↔
      w ∈ (ScoreWords (RemoveDuplicates (SortWords S₁ (g.withWords ws1)))).m_words := by
    intro w
    rw [hwords2, hsame, hwords1]
    tauto
  have hnd1 : (ScoreWords (RemoveDuplicates (SortWords S₁ (g.withWords ws1)))).m_words.Nodup :=
    removeDuplicatesList_nodup _
  have hnd2 : (ScoreWords (RemoveDuplicates (SortWords S₂
      ((ScoreWords (RemoveDuplicates (SortWords S₁ (g.withWords ws1)))).withWords
        ws2)))).m_words.Nodup :=
    removeDuplicatesList_nodup _
  refine ⟨_, _, ws2, hfind1, hrun2, hfind2, hset, ?_, hnd2, ?_⟩
  · rw [ScoreWords_totalScore, ScoreWords_totalScore]
    have hperm := (List.perm_ext_iff_of_nodup hnd2 hnd1).mpr hset
    rw [ScoreWords_words, ScoreWords_words] at hperm
    exact (hperm.map wordScore).sum_eq
  · have hs : (removeDuplicatesList (S₂.run
        ((ScoreWords (RemoveDuplicates (SortWords S₁ (g.withWords ws1)))).withWords
          ws2).m_words)).Pairwise (fun a b => ¬ (b.length > a.length)) :=
      (S₂.sorted _).sublist (removeDuplicatesList_sublist _)
    intro i j hij
    have := List.pairwise_iff_get.mp hs i j hij
    exact Nat.le_of_not_lt this

theorem FindWords_twice_witness :
    ∃ g1 g2 ws, FindWords stableSort twoWordGame = .ok g1 ∧
      searchAll g1 = .ok (g1.withWords ws) ∧
      FindWords mirrorSort g1 = .ok g2 ∧
      (∀ w, w ∈ g2.m_words ↔ w ∈ g1.m_words) ∧
      g2.m_totalScore = g1.m_totalScore ∧
      g2.m_words.Nodup ∧
      (∀ i j : Fin g2.m_words.length, i < j →
        (g2.m_words.get i).length ≥ (g2.m_words.get j).length) :=
  FindWords_twice stableSort mirrorSort twoWordGame
    ⟨by decide, by decide, by decide, by decide⟩ (by decide)

end Boggle

namespace Boggle

/-! ## Termination: the fuel is never used up -/

theorem error_bind {α β : Type} (e : Fault) (f : α → Except Fault β) :
    ((Except.error e : Except Fault α) >>= f) = Except.error e := rfl

theorem vecAt_error {α : Type} (v : List α) (i : Int) (e : Fault)
    (h : vecAt v i = .error e) : e = Fault.indexOutOfRange := by
  unfold vecAt at h
  split at h
  · split at h
    · cases h
    · injection h with h; exact h.symm
  · injection h with h; exact h.symm

theorem vecAt_eq_ok {α : Type} (v : List α) (i : Int) (x : α) (h : vecAt v i = .ok x) :
    0 ≤ i ∧ v[i.toNat]? = some x := by
  unfold vecAt at h
  split at h
  · rename_i h0
    split at h
    · rename_i y hy
      injection h with h
      exact ⟨h0, h ▸ hy⟩
    · cases h
  · cases h

theorem pushIfWord_visited (g : BoggleGame) (s : Str) :
    (pushIfWord g s).m_visited = g.m_visited := by
  unfold pushIfWord
  split <;> rfl

theorem pushIfWord_squareSize (g : BoggleGame) (s : Str) :
    (pushIfWord g s).m_squareSize = g.m_squareSize := by
  unfold pushIfWord
  split <;> rfl

theorem visitIfUnseen_fuel (call : Int → Str → BoggleGame → Except Fault BoggleGame)
    (str : Str) (V : List Bool)
    (hcall : ∀ (gs : BoggleGame) (j : Int), gs.m_visited = V → 0 ≤ j →
      V[j.toNat]? = some false →
      call j str gs ≠ .error Fault.outOfFuel ∧ ∀ g', call j str gs = .ok g' → g'.m_visited = V)
    (gs : BoggleGame) (hgs : gs.m_visited = V) (j : Int) :
    visitIfUnseen call str gs j ≠ .error Fault.outOfFuel ∧
      ∀ g', visitIfUnseen call str gs j = .ok g' → g'.m_visited = V := by
  unfold visitIfUnseen
  cases hv : vecAt gs.m_visited j with
  | error e =>
    rw [error_bind]
    have := vecAt_error _ _ _ hv
    subst this
    exact ⟨(by intro h; cases h), (by intro g' h; cases h)⟩
  | ok seen =>
    rw [ok_bind]
    obtain ⟨h0, hseen⟩ := vecAt_eq_ok _ _ _ hv
    cases seen with
    | true =>
      simp only [Bool.true_eq_false, if_false]
      exact ⟨(by intro h; cases h), (by intro g' h; injection h with h; rw [← h, hgs])⟩
    | false =>
      simp only [if_true]
      rw [hgs] at hseen
      exact hcall gs j hgs h0 hseen

theorem scanLoop_fuel (call : Int → Str → BoggleGame → Except Fault BoggleGame)
    (str : Str) (V : List Bool)
    (hcall : ∀ (gs : BoggleGame) (j : Int), gs.m_visited = V → 0 ≤ j →
      V[j.toNat]? = some false →
      call j str gs ≠ .error Fault.outOfFuel ∧ ∀ g', call j str gs = .ok g' → g'.m_visited = V)
    (cs : List Int) :
    ∀ gs : BoggleGame, gs.m_visited = V →
      cs.foldlM (visitIfUnseen call str) gs ≠ .error Fault.outOfFuel ∧
        ∀ g', cs.foldlM (visitIfUnseen call str) gs = .ok g' → g'.m_visited = V := by
  induction cs with
  | nil =>
    intro gs hgs
    simp only [List.foldlM, pure, Except.pure]
    exact ⟨(by intro h; cases h), (by intro g' h; injection h with h; rw [← h, hgs])⟩
  | cons j cs ih =>
    intro gs hgs
    rw [List.foldlM_cons]
    obtain ⟨hne, hok⟩ := visitIfUnseen_fuel call str V hcall gs hgs j
    cases hstep : visitIfUnseen call str gs j with
    | error e =>
      rw [error_bind]
      refine ⟨?_, (by intro g' h; cases h)⟩
      intro h
      injection h with h
      exact hne (by rw [hstep, h])
    | ok g1 =>
      rw [ok_bind]
      exact ih g1 (hok g1 hstep)

/-- A call on an unvisited cell with fuel for the cells still unvisited never runs out of
fuel, whatever the dictionary and the labels; when it returns, `m_visited` is as it was. -/
theorem FindWordsUtil_fuel_enough (fuel : Nat) :
    ∀ (g : BoggleGame) (ind : Int) (str : Str), 0 ≤ ind →
      g.m_visited[ind.toNat]? = some false → g.m_visited.count false ≤ fuel →
      FindWordsUtil fuel ind str g ≠ .error Fault.outOfFuel ∧
        ∀ g', FindWordsUtil fuel ind str g = .ok g' → g'.m_visited = g.m_visited := by
  induction fuel with
  | zero =>
    intro g ind str _ hv hc
    have := count_false_pos _ _ hv
    omega
  | succ fuel ih =>
    intro g ind str h0 hv hc
    rw [FindWordsUtil]
    by_cases hcan : g.m_dict.CanBeWord str = false
    · rw [if_pos hcan]
      exact ⟨(by intro h; cases h), (by intro g' h; injection h with h; rw [← h])⟩
    · rw [if_neg hcan]
      have hlt : ind.toNat < g.m_visited.length := (List.getElem?_eq_some_iff.mp hv).1
      have hset : setVisited g ind true
          = .ok { g with m_visited := g.m_visited.set ind.toNat true } := by
        unfold setVisited
        rw [vecSet_ok _ _ _ h0 hlt]
        rfl
      rw [hset, ok_bind]
      cases hb : vecAt ({ g with m_visited := g.m_visited.set ind.toNat true } :
          BoggleGame).m_board ind with
      | error e =>
        rw [error_bind]
        have := vecAt_error _ _ _ hb
        subst this
        exact ⟨(by intro h; cases h), (by intro g' h; cases h)⟩
      | ok label =>
        rw [ok_bind]
        simp only [pushIfWord_squareSize]
        by_cases hsz : g.m_squareSize = 0
        · rw [if_pos hsz]
          exact ⟨(by intro h; cases h), (by intro g' h; cases h)⟩
        · rw [if_neg hsz]
          have hcount : (g.m_visited.set ind.toNat true).count false ≤ fuel := by
            have := count_false_set_true _ _ hv
            omega
          obtain ⟨hne, hok⟩ := scanLoop_fuel (FindWordsUtil fuel) (str ++ label)
            (g.m_visited.set ind.toNat true)
            (fun gs j hgs hj0 hjv => by
              have := ih gs j (str ++ label) hj0 (hgs ▸ hjv) (hgs ▸ hcount)
              rw [hgs] at this
              exact this)
            (scanIndices g.m_squareSize (ind.tdiv g.m_squareSize) (ind.tmod g.m_squareSize))
            (pushIfWord { g with m_visited := g.m_visited.set ind.toNat true } (str ++ label))
            (pushIfWord_visited _ _)
          cases hloop : (scanIndices g.m_squareSize (ind.tdiv g.m_squareSize)
              (ind.tmod g.m_squareSize)).foldlM (visitIfUnseen (FindWordsUtil fuel)
                (str ++ label))
              (pushIfWord { g with m_visited := g.m_visited.set ind.toNat true }
                (str ++ label)) with
          | error e =>
            rw [error_bind]
            refine ⟨?_, (by intro g' h; cases h)⟩
            intro h
            injection h with h
            exact hne (by rw [hloop, h])
          | ok g3 =>
            rw [ok_bind]
            have hg3 := hok g3 hloop
            cases he : eraseLast (str ++ label) with
            | error e =>
              rw [error_bind]
              unfold eraseLast at he
              split at he
              · injection he with he
                subst he
                exact ⟨(by intro h; cases h), (by intro g' h; cases h)⟩
              · cases he
            | ok s =>
              rw [ok_bind]
              unfold setVisited
              rw [vecSet_ok _ _ _ h0 (by rw [hg3, List.length_set]; exact hlt), ok_bind]
              refine ⟨(by intro h; cases h), ?_⟩
              intro g' h
              injection h with h
              rw [← h]
              show g3.m_visited.set ind.toNat false = g.m_visited
              rw [hg3]
              exact set_true_set_false _ _ hv

end Boggle

namespace Boggle

theorem scanLoop_more_fuel (c1 c2 : Int → Str → BoggleGame → Except Fault BoggleGame)
    (str : Str)
    (hc : ∀ (j : Int) (gs : BoggleGame), c1 j str gs ≠ .error Fault.outOfFuel →
      c2 j str gs = c1 j str gs)
    (cs : List Int) :
    ∀ gs : BoggleGame, cs.foldlM (visitIfUnseen c1 str) gs ≠ .error Fault.outOfFuel →
      cs.foldlM (visitIfUnseen c2 str) gs = cs.foldlM (visitIfUnseen c1 str) gs := by
  induction cs with
  | nil => intro gs _; rfl
  | cons j cs ih =>
    intro gs h
    rw [List.foldlM_cons] at h
    rw [List.foldlM_cons, List.foldlM_cons]
    have hstep : visitIfUnseen c2 str gs j = visitIfUnseen c1 str gs j := by
      have hne : visitIfUnseen c1 str gs j ≠ .error Fault.outOfFuel := by
        intro hs
        apply h
        rw [hs, error_bind]
      unfold visitIfUnseen at hne ⊢
      cases hv : vecAt gs.m_visited j with
      | error e => rfl
      | ok seen =>
        rw [hv, ok_bind] at hne
        rw [ok_bind, ok_bind]
        cases seen with
        | true => rfl
        | false =>
          simp only [if_true] at hne ⊢
          exact hc j gs hne
    rw [hstep]
    cases hs : visitIfUnseen c1 str gs j with
    | error e => rfl
    | ok g1 =>
      rw [hs, ok_bind] at h
      rw [ok_bind, ok_bind]
      exact ih g1 h

/-- Fuel beyond what a call needs changes nothing: a call that does not run out of fuel
gives the same result with one more unit. -/
theorem FindWordsUtil_succ_fuel (fuel : Nat) :
    ∀ (ind : Int) (str : Str) (g : BoggleGame),
      FindWordsUtil fuel ind str g ≠ .error Fault.outOfFuel →
      FindWordsUtil (fuel + 1) ind str g = FindWordsUtil fuel ind str g := by
  induction fuel with
  | zero =>
    intro ind str g h
    exact absurd rfl h
  | succ fuel ih =>
    intro ind str g h
    rw [FindWordsUtil] at h
    rw [FindWordsUtil, FindWordsUtil]
    by_cases hcan : g.m_dict.CanBeWord str = false
    · rw [if_pos hcan, if_pos hcan]
    · rw [if_neg hcan] at h
      rw [if_neg hcan, if_neg hcan]
      cases hs : setVisited g ind true with
      | error e => rfl
      | ok g1 =>
        rw [hs, ok_bind] at h
        rw [ok_bind, ok_bind]
        cases hb : vecAt g1.m_board ind with
        | error e => rfl
        | ok label =>
          rw [hb, ok_bind] at h
          rw [ok_bind, ok_bind]
          by_cases hsz : (pushIfWord g1 (str ++ label)).m_squareSize = 0
          · simp only [hsz, if_true]
          · simp only [hsz, if_false] at h ⊢
            have hloop := scanLoop_more_fuel (FindWordsUtil fuel) (FindWordsUtil (fuel + 1))
              (str ++ label) (fun j gs hj => ih j (str ++ label) gs hj)
              (scanIndices (pushIfWord g1 (str ++ label)).m_squareSize
                (ind.tdiv (pushIfWord g1 (str ++ label)).m_squareSize)
                (ind.tmod (pushIfWord g1 (str ++ label)).m_squareSize))
              (pushIfWord g1 (str ++ label))
              (by
                intro hl
                apply h
                rw [hl, error_bind])
            rw [hloop]

theorem FindWordsUtil_add_fuel (fuel extra : Nat) (ind : Int) (str : Str) (g : BoggleGame)
    (h : FindWordsUtil fuel ind str g ≠ .error Fault.outOfFuel) :
    FindWordsUtil (fuel + extra) ind str g = FindWordsUtil fuel ind str g := by
  induction extra with
  | zero => rfl
  | succ k ih =>
    rw [← Nat.add_assoc, FindWordsUtil_succ_fuel (fuel + k) ind str g (by rw [ih]; exact h), ih]

theorem searchLoop_fuel (V : List Bool) (hV : ∀ b ∈ V, b = false) (cells : List Nat)
    (hcells : ∀ i ∈ cells, i < V.length) :
    ∀ gs : BoggleGame, gs.m_visited = V →
      cells.foldlM
        (fun gs (i : Nat) => FindWordsUtil (gs.m_visited.length + 1) (i : Int) [] gs) gs
          ≠ .error Fault.outOfFuel := by
  induction cells with
  | nil => intro gs _ h; cases h
  | cons i cells ih =>
    intro gs hgs
    rw [List.foldlM_cons]
    have hi := hcells i (List.mem_cons_self _ _)
    have hvi : gs.m_visited[((i : Int)).toNat]? = some false := by
      rw [hgs, Int.toNat_ofNat, List.getElem?_eq_getElem hi]
      exact congrArg some (hV _ (List.getElem_mem hi))
    obtain ⟨hne, hok⟩ := FindWordsUtil_fuel_enough (gs.m_visited.length + 1) gs (i : Int) []
      (by omega) hvi (Nat.le_succ_of_le (List.count_le_length _ _))
    cases hs : FindWordsUtil (gs.m_visited.length + 1) (i : Int) [] gs with
    | error e =>
      rw [error_bind]
      intro h
      injection h with h
      exact hne (by rw [hs, h])
    | ok g1 =>
      rw [ok_bind]
      exact ih (fun k hk => hcells k (List.mem_cons_of_mem _ hk)) g1
        ((hok g1 hs).trans hgs)

/-- C15. For every game, whatever its dictionary and its labels, the recursion of
`FindWordsUtil` terminates: a call on an unvisited cell never needs more nested calls than
there are unvisited cells, and more fuel does not change its result; marking a cell
strictly decreases the number of unvisited cells; on a board of `size * size` cells a
depth of `size * size` is enough, and `FindWords` never runs out of fuel. -/
theorem FindWordsUtil_terminates :
    (∀ (g : BoggleGame) (fuel : Nat) (ind : Int) (str : Str), 0 ≤ ind →
      g.m_visited[ind.toNat]? = some false → g.m_visited.count false ≤ fuel →
      FindWordsUtil fuel ind str g ≠ .error Fault.outOfFuel ∧
        ∀ extra, FindWordsUtil (fuel + extra) ind str g = FindWordsUtil fuel ind str g) ∧
    (∀ (V : List Bool) (i : Nat), V[i]? = some false →
      (V.set i true).count false < V.count false) ∧
    (∀ (size : Int) (g : BoggleGame) (ind : Int) (str : Str), 1 ≤ size →
      (g.m_board.length : Int) = size * size → g.m_visited.length = g.m_board.length →
      0 ≤ ind → g.m_visited[ind.toNat]? = some false →
      FindWordsUtil (size * size).toNat ind str g ≠ .error Fault.outOfFuel) ∧
    (∀ (S : StdSort) (g : BoggleGame), g.m_visited.length = g.m_board.length →
      (∀ b ∈ g.m_visited, b = false) → FindWords S g ≠ .error Fault.outOfFuel) := by
  refine ⟨?_, ?_, ?_, ?_⟩
  · intro g fuel ind str h0 hv hc
    have h := (FindWordsUtil_fuel_enough fuel g ind str h0 hv hc).1
    exact ⟨h, fun extra => FindWordsUtil_add_fuel fuel extra ind str g h⟩
  · intro V i hv
    have := count_false_set_true V i hv
    omega
  · intro size g ind str _ hboard hlen h0 hv
    refine (FindWordsUtil_fuel_enough _ g ind str h0 hv ?_).1
    have := List.count_le_length false g.m_visited
    omega
  · intro S g hlen hV
    have hsearch : searchAll g ≠ .error Fault.outOfFuel :=
      searchLoop_fuel g.m_visited hV (List.range g.m_board.length)
        (fun i hi => by rw [hlen]; exact List.mem_range.mp hi) g rfl
    unfold FindWords
    cases hs : searchAll g with
    | error e =>
      rw [error_bind]
      intro h
      injection h with h
      exact hsearch (by rw [hs, h])
    | ok g1 =>
      rw [ok_bind]
      intro h
      cases h

theorem FindWordsUtil_terminates_witness :
    FindWordsUtil 9 0 [] threeByThreeGame ≠ .error Fault.outOfFuel ∧
      ∀ extra, FindWordsUtil (9 + extra) 0 [] threeByThreeGame
        = FindWordsUtil 9 0 [] threeByThreeGame :=
  FindWordsUtil_terminates.1 threeByThreeGame 9 0 [] (by decide) (by decide) (by decide)

end Boggle

namespace Boggle

/-! ## The code against the step of the specification -/

theorem specCols_eq (size row c : Int) (hrow : row < size) :
    [c - 1, c, c + 1].filterMap (fun col =>
        if 0 ≤ row ∧ row < size ∧ 0 ≤ col ∧ col < size then some (row * size + col) else none)
      = (scanRange c size).filterMap (fun col =>
        if 0 ≤ row ∧ 0 ≤ col then some (row * size + col) else none) := by
  unfold scanRange
  by_cases k1 : c - 1 < size <;> by_cases k2 : c < size <;> by_cases k3 : c + 1 < size <;>
    try omega
  all_goals simp [List.takeWhile, List.filterMap_cons, hrow, k1, k2, k3]

theorem specCols_nil (size row c : Int) (hrow : ¬ row < size) :
    [c - 1, c, c + 1].filterMap (fun col =>
        if 0 ≤ row ∧ row < size ∧ 0 ≤ col ∧ col < size then some (row * size + col) else none)
      = [] := by
  simp [List.filterMap_cons, hrow]

theorem specNeighbours_eq_scanIndices (size ind : Int) (hsize : 1 ≤ size) (h0 : 0 ≤ ind) :
    specNeighbours size ind = scanIndices size (ind.tdiv size) (ind.tmod size) := by
  have hs0 : (0 : Int) ≤ size := by omega
  rw [Int.tdiv_eq_ediv h0 hs0, Int.tmod_eq_emod h0 hs0]
  unfold specNeighbours scanIndices
  generalize ind / size = r
  generalize ind % size = c
  simp only [List.flatMap_cons, List.flatMap_nil, List.append_nil]
  unfold scanRange
  by_cases h1 : r - 1 < size <;> by_cases h2 : r < size <;> by_cases h3 : r + 1 < size <;>
    try omega
  · rw [specCols_eq _ _ _ h1, specCols_eq _ _ _ h2, specCols_eq _ _ _ h3]
    simp [List.takeWhile, h1, h2, h3, scanRange]
  · rw [specCols_eq _ _ _ h1, specCols_eq _ _ _ h2, specCols_nil _ _ _ h3]
    simp [List.takeWhile, h1, h2, h3, scanRange]
  · rw [specCols_eq _ _ _ h1, specCols_nil _ _ _ h2, specCols_nil _ _ _ h3]
    simp [List.takeWhile, h1, h2, h3, scanRange]
  · rw [specCols_nil _ _ _ h1, specCols_nil _ _ _ h2, specCols_nil _ _ _ h3]
    simp [List.takeWhile, h1, h2, h3, scanRange]

/-- The words a call pushes by itself, before it scans the neighbours. -/
theorem FindWordsUtil_of_loop (fuel : Nat) (g : BoggleGame) (hg : WellFormed g)
    (acc : List Str) (ind : Int) (str : Str) (h0 : 0 ≤ ind)
    (h1 : ind < g.m_squareSize * g.m_squareSize) (hv : g.m_visited[ind.toNat]? = some false)
    (hcan : g.m_dict.CanBeWord str = true) (pre ws : List Str)
    (hpre : pre = if g.m_dict.IsWordValid (str ++ labelAt g.m_board ind) &&
        lengthAtLeast (str ++ labelAt g.m_board ind).length g.m_minWordSize
      then [str ++ labelAt g.m_board ind] else [])
    (hloop : (scanIndices g.m_squareSize (ind.tdiv g.m_squareSize)
        (ind.tmod g.m_squareSize)).foldlM
          (visitIfUnseen (FindWordsUtil fuel) (str ++ labelAt g.m_board ind))
          (({ g with m_visited := g.m_visited.set ind.toNat true } : BoggleGame).withWords
            (acc ++ pre))
        = .ok (({ g with m_visited := g.m_visited.set ind.toNat true } : BoggleGame).withWords
            (acc ++ pre ++ ws))) :
    FindWordsUtil (fuel + 1) ind str (g.withWords acc) = .ok (g.withWords (acc ++ pre ++ ws)) := by
  subst hpre
  obtain ⟨hlab, hne⟩ := labelAt_ne_nil g hg ind h0 h1
  have hsz : g.m_squareSize ≠ 0 := by have := hg.size_pos; omega
  have hstr1 : str ++ labelAt g.m_board ind ≠ [] := by simp [hne]
  have hcan' : ¬ (g.m_dict.CanBeWord str = false) := by rw [hcan]; exact Bool.noConfusion
  rw [FindWordsUtil]
  have hd : (g.withWords acc).m_dict = g.m_dict := rfl
  rw [hd, if_neg hcan', setVisited_ok _ (hg.withWords acc) _ _ h0 h1, ok_bind]
  have hb : vecAt g.m_board ind = .ok (labelAt g.m_board ind) := vecAt_ok _ _ _ h0 hlab
  simp only [BoggleGame.withWords]
  rw [hb, ok_bind, pushIfWord_eq]
  simp only [BoggleGame.withWords, List.append_assoc]
  rw [if_neg hsz]
  simp only [BoggleGame.withWords, List.append_assoc] at hloop
  rw [hloop, ok_bind, eraseLast_ok _ hstr1, ok_bind]
  unfold setVisited
  rw [vecSet_ok _ _ _ h0 (by
    simp only [List.length_set]
    rw [hg.visited_len]; exact toNat_lt_length g hg ind h0 h1), ok_bind]
  simp only [set_true_set_false _ _ hv]

/-- A call whose candidate `str + m_board[ind]` fails `CanBeWord` leaves the game as it
was. -/
theorem FindWordsUtil_abandons (g : BoggleGame) (hg : WellFormed g)
    (hclosed : ∀ w, g.m_dict.IsWordValid w = true → g.m_dict.CanBeWord w = true)
    (fuel : Nat) (acc : List Str) (ind : Int) (str : Str) (h0 : 0 ≤ ind)
    (h1 : ind < g.m_squareSize * g.m_squareSize) (hv : g.m_visited[ind.toNat]? = some false)
    (hc : g.m_visited.count false ≤ fuel)
    (hcand : g.m_dict.CanBeWord (str ++ labelAt g.m_board ind) = false) :
    FindWordsUtil fuel ind str (g.withWords acc) = .ok (g.withWords acc) := by
  obtain ⟨ws, hrun, hmem⟩ := FindWordsUtil_spec fuel g hg acc ind str h0 h1 hv hc
  have hws : ws = [] := by
    rw [List.eq_nil_iff_forall_not_mem]
    intro w hw
    have hp := (hmem w).mp hw
    cases hp with
    | here _ _ _ _ hval _ =>
      have := hclosed _ hval
      rw [hcand] at this
      cases this
    | step _ _ _ j _ _ _ _ hnext =>
      have := hnext.canBeWord
      rw [hcand] at this
      cases this
  rw [hws, List.append_nil] at hrun
  exact hrun

theorem scanLoop_refines (fuel : Nat) (str : Str) (g : BoggleGame) (hg : WellFormed g)
    (hcall : ∀ (acc : List Str) (j : Int), 0 ≤ j → j < g.m_squareSize * g.m_squareSize →
      g.m_visited[j.toNat]? = some false →
      ∃ ws, FindWordsUtil fuel j str (g.withWords acc) = .ok (g.withWords (acc ++ ws)) ∧
        specStep fuel j str (g.withWords acc) = some (g.withWords (acc ++ ws)))
    (cs : List Int) (hcs : ∀ j ∈ cs, 0 ≤ j ∧ j < g.m_squareSize * g.m_squareSize)
    (acc : List Str) :
    ∃ ws, cs.foldlM (visitIfUnseen (FindWordsUtil fuel) str) (g.withWords acc)
          = .ok (g.withWords (acc ++ ws)) ∧
      cs.foldlM (specVisit (specStep fuel) str) (g.withWords acc)
          = some (g.withWords (acc ++ ws)) := by
  induction cs generalizing acc with
  | nil =>
    refine ⟨[], ?_, ?_⟩
    · simp [List.foldlM, pure, Except.pure]
    · simp [List.foldlM]
  | cons j cs ih =>
    have hj := hcs j (List.mem_cons_self _ _)
    have hcs' : ∀ k ∈ cs, 0 ≤ k ∧ k < g.m_squareSize * g.m_squareSize :=
      fun k hk => hcs k (List.mem_cons_of_mem _ hk)
    have hlt : j.toNat < g.m_visited.length := by
      rw [hg.visited_len]; exact toNat_lt_length g hg j hj.1 hj.2
    have hvis : (g.withWords acc).m_visited = g.m_visited := rfl
    cases hv : g.m_visited[j.toNat] with
    | true =>
      have hv' : g.m_visited[j.toNat]? = some true := by
        rw [List.getElem?_eq_getElem hlt, hv]
      obtain ⟨ws, hrun, hspec⟩ := ih hcs' acc
      refine ⟨ws, ?_, ?_⟩
      · rw [List.foldlM_cons]
        have : visitIfUnseen (FindWordsUtil fuel) str (g.withWords acc) j
            = .ok (g.withWords acc) := by
          unfold visitIfUnseen
          rw [hvis, vecAt_ok _ _ _ hj.1 hv']
          rfl
        rw [this]
        exact hrun
      · rw [List.foldlM_cons]
        have : specVisit (specStep fuel) str (g.withWords acc) j = some (g.withWords acc) := by
          unfold specVisit
          rw [hvis, List.getD_eq_getElem?_getD, hv']
          rfl
        rw [this]
        exact hspec
    | false =>
      have hv' : g.m_visited[j.toNat]? = some false := by
        rw [List.getElem?_eq_getElem hlt, hv]
      obtain ⟨ws1, hrun1, hspec1⟩ := hcall acc j hj.1 hj.2 hv'
      obtain ⟨ws, hrun, hspec⟩ := ih hcs' (acc ++ ws1)
      refine ⟨ws1 ++ ws, ?_, ?_⟩
      · rw [List.foldlM_cons]
        have : visitIfUnseen (FindWordsUtil fuel) str (g.withWords acc) j
            = .ok (g.withWords (acc ++ ws1)) := by
          unfold visitIfUnseen
          rw [hvis, vecAt_ok _ _ _ hj.1 hv']
          exact hrun1
        rw [this, ← List.append_assoc]
        exact hrun
      · rw [List.foldlM_cons]
        have : specVisit (specStep fuel) str (g.withWords acc) j
            = some (g.withWords (acc ++ ws1)) := by
          unfold specVisit
          rw [hvis, List.getD_eq_getElem?_getD, hv']
          exact hspec1
        rw [this, ← List.append_assoc]
        exact hspec

end Boggle

namespace Boggle

/-- A call of the code on a string that passes `CanBeWord` does what the step of the
specification does. -/
theorem FindWordsUtil_refines (fuel : Nat) :
    ∀ (g : BoggleGame), WellFormed g →
      (∀ w, g.m_dict.IsWordValid w = true → g.m_dict.CanBeWord w = true) →
      0 ≤ g.m_minWordSize →
      ∀ (acc : List Str) (ind : Int) (str : Str), 0 ≤ ind →
        ind < g.m_squareSize * g.m_squareSize → g.m_visited[ind.toNat]? = some false →
        g.m_visited.count false ≤ fuel → g.m_dict.CanBeWord str = true →
        ∃ ws, FindWordsUtil fuel ind str (g.withWords acc) = .ok (g.withWords (acc ++ ws)) ∧
          specStep fuel ind str (g.withWords acc) = some (g.withWords (acc ++ ws)) := by
  induction fuel with
  | zero =>
    intro g _ _ _ acc ind str _ _ hv hc _
    have := count_false_pos _ _ hv
    omega
  | succ fuel ih =>
    intro g hg hclosed hmin acc ind str h0 h1 hv hc hcan
    have hd : (g.withWords acc).m_dict = g.m_dict := rfl
    have hbd : (g.withWords acc).m_board = g.m_board := rfl
    by_cases hcand : g.m_dict.CanBeWord (str ++ labelAt g.m_board ind) = false
    · refine ⟨[], ?_, ?_⟩
      · rw [List.append_nil]
        exact FindWordsUtil_abandons g hg hclosed _ acc ind str h0 h1 hv hc hcand
      · rw [specStep, hd, hbd, if_pos hcand, List.append_nil]
    · have hcand' : g.m_dict.CanBeWord (str ++ labelAt g.m_board ind) = true := by
        simpa using hcand
      have hG1 : WellFormed { g with m_visited := g.m_visited.set ind.toNat true } :=
        hg.setVis _ _
      have hcount : (g.m_visited.set ind.toNat true).count false ≤ fuel := by
        have := count_false_set_true _ _ hv
        omega
      obtain ⟨ws, hrun, hspec⟩ := scanLoop_refines fuel (str ++ labelAt g.m_board ind) _ hG1
        (fun acc j hj0 hj1 hjv => ih _ hG1 hclosed hmin acc j _ hj0 hj1 hjv hcount hcand')
        (scanIndices g.m_squareSize (ind.tdiv g.m_squareSize) (ind.tmod g.m_squareSize))
        (fun j hj => ((mem_scanIndices_iff _ _ _ hg.size_pos h0).mp hj).1)
        (acc ++ (if g.m_dict.IsWordValid (str ++ labelAt g.m_board ind) &&
            lengthAtLeast (str ++ labelAt g.m_board ind).length g.m_minWordSize
          then [str ++ labelAt g.m_board ind] else []))
      refine ⟨(if g.m_dict.IsWordValid (str ++ labelAt g.m_board ind) &&
            lengthAtLeast (str ++ labelAt g.m_board ind).length g.m_minWordSize
          then [str ++ labelAt g.m_board ind] else []) ++ ws, ?_, ?_⟩
      · rw [← List.append_assoc]
        exact FindWordsUtil_of_loop fuel g hg acc ind str h0 h1 hv hcan _ ws rfl hrun
      · rw [specStep, hd, hbd, if_neg hcand]
        have hsq : (g.withWords acc).m_squareSize = g.m_squareSize := rfl
        have hms : (g.withWords acc).m_minWordSize = g.m_minWordSize := rfl
        rw [hsq, hms, specNeighbours_eq_scanIndices _ _ hg.size_pos h0]
        have hinit : (if g.m_dict.IsWordValid (str ++ labelAt g.m_board ind) = true ∧
              g.m_minWordSize ≤ ((str ++ labelAt g.m_board ind).length : Int) then
            ({ g.withWords acc with
              m_visited := (g.withWords acc).m_visited.set ind.toNat true
              m_words := (g.withWords acc).m_words ++ [str ++ labelAt g.m_board ind] } :
                BoggleGame)
            else { g.withWords acc with
              m_visited := (g.withWords acc).m_visited.set ind.toNat true })
            = ({ g with m_visited := g.m_visited.set ind.toNat true } : BoggleGame).withWords
              (acc ++ (if g.m_dict.IsWordValid (str ++ labelAt g.m_board ind) &&
                lengthAtLeast (str ++ labelAt g.m_board ind).length g.m_minWordSize
              then [str ++ labelAt g.m_board ind] else [])) := by
          by_cases hval : g.m_dict.IsWordValid (str ++ labelAt g.m_board ind) = true
          · by_cases hlong : g.m_minWordSize ≤ ((str ++ labelAt g.m_board ind).length : Int)
            · have hl : lengthAtLeast (str ++ labelAt g.m_board ind).length g.m_minWordSize
                  = true := by
                unfold lengthAtLeast
                exact decide_eq_true ⟨hmin, hlong⟩
              rw [if_pos ⟨hval, hlong⟩, hval, hl]
              simp [BoggleGame.withWords]
            · have hl : lengthAtLeast (str ++ labelAt g.m_board ind).length g.m_minWordSize
                  = false := by
                unfold lengthAtLeast
                exact decide_eq_false (fun h => hlong h.2)
              rw [if_neg (fun h => hlong h.2), hval, hl]
              simp [BoggleGame.withWords]
          · have hval' : g.m_dict.IsWordValid (str ++ labelAt g.m_board ind) = false := by
              simpa using hval
            rw [if_neg (fun h => hval h.1), hval']
            simp [BoggleGame.withWords]
        have hgoal : ∀ X : BoggleGame,
            X = ({ g with m_visited := g.m_visited.set ind.toNat true } : BoggleGame).withWords
              (acc ++ (if g.m_dict.IsWordValid (str ++ labelAt g.m_board ind) &&
                lengthAtLeast (str ++ labelAt g.m_board ind).length g.m_minWordSize
              then [str ++ labelAt g.m_board ind] else [])) →
            ((scanIndices g.m_squareSize (ind.tdiv g.m_squareSize)
                (ind.tmod g.m_squareSize)).foldlM
              (specVisit (specStep fuel) (str ++ labelAt g.m_board ind)) X).map
              (fun g3 => { g3 with m_visited := g3.m_visited.set ind.toNat false })
            = some (g.withWords (acc ++
                ((if g.m_dict.IsWordValid (str ++ labelAt g.m_board ind) &&
                  lengthAtLeast (str ++ labelAt g.m_board ind).length g.m_minWordSize
                then [str ++ labelAt g.m_board ind] else []) ++ ws))) := by
          intro X hX
          rw [hX, hspec]
          simp only [Option.map_some', BoggleGame.withWords, set_true_set_false _ _ hv,
            List.append_assoc]
        exact hgoal _ hinit

theorem searchLoop_refines (g : BoggleGame) (hg : WellFormed g)
    (hclosed : ∀ w, g.m_dict.IsWordValid w = true → g.m_dict.CanBeWord w = true)
    (hnil : g.m_dict.CanBeWord [] = true) (hmin : 0 ≤ g.m_minWordSize)
    (hfalse : ∀ i, i < g.m_board.length → g.m_visited[i]? = some false) (cells : List Nat)
    (hcells : ∀ i ∈ cells, i < g.m_board.length) (acc : List Str) :
    ∃ ws, cells.foldlM
        (fun gs (i : Nat) => FindWordsUtil (gs.m_visited.length + 1) (i : Int) [] gs)
        (g.withWords acc) = .ok (g.withWords (acc ++ ws)) ∧
      cells.foldlM
        (fun gs (i : Nat) => specStep (gs.m_visited.length + 1) (i : Int) [] gs)
        (g.withWords acc) = some (g.withWords (acc ++ ws)) := by
  induction cells generalizing acc with
  | nil =>
    refine ⟨[], ?_, ?_⟩
    · simp [List.foldlM, pure, Except.pure]
    · simp [List.foldlM]
  | cons i cells ih =>
    have hi := hcells i (List.mem_cons_self _ _)
    have hi1 : (i : Int) < g.m_squareSize * g.m_squareSize := by
      have := hg.board_len
      omega
    have hfuel : g.m_visited.count false ≤ g.m_visited.length + 1 :=
      Nat.le_succ_of_le (List.count_le_length _ _)
    obtain ⟨ws1, hrun1, hspec1⟩ := FindWordsUtil_refines (g.m_visited.length + 1) g hg hclosed
      hmin acc (i : Int) [] (by omega) hi1 (by simpa using hfalse i hi) hfuel hnil
    obtain ⟨ws, hrun, hspec⟩ :=
      ih (fun k hk => hcells k (List.mem_cons_of_mem _ hk)) (acc ++ ws1)
    have hl : (g.withWords acc).m_visited.length = g.m_visited.length := rfl
    refine ⟨ws1 ++ ws, ?_, ?_⟩
    · rw [List.foldlM_cons, hl, hrun1, ok_bind, ← List.append_assoc]
      exact hrun
    · rw [List.foldlM_cons, hl, hspec1, ← List.append_assoc]
      exact hspec

/-- C16. For every dictionary built by `LoadDictionary` and every well-formed game: when
`CanBeWord(str + m_board[ind])` is false, the call `FindWordsUtil(ind, str)` on an
unvisited cell pushes nothing and returns with the game as it was, and every call it makes
on a neighbour returns at once without expanding it.  Consequently the search of the
code, which tests `CanBeWord` on `str` before appending the label, leaves the same game,
and so the same discovery-order word list, as the search of the specification, which
tests the candidate after appending. -/
theorem FindWordsUtil_refines_specified_step (file : Option (List Str)) (g : BoggleGame)
    (hg : WellFormed g) (hdict : g.m_dict = (Dictionary.fresh.LoadDictionary file).2) :
    (∀ (fuel : Nat) (ind : Int) (str : Str), 0 ≤ ind →
      ind < g.m_squareSize * g.m_squareSize → g.m_visited[ind.toNat]? = some false →
      g.m_visited.count false ≤ fuel →
      g.m_dict.CanBeWord (str ++ labelAt g.m_board ind) = false →
      FindWordsUtil fuel ind str g = .ok g ∧
        ∀ (depth : Nat) (j : Int) (gs : BoggleGame), gs.m_dict = g.m_dict →
          FindWordsUtil (depth + 1) j (str ++ labelAt g.m_board ind) gs = .ok gs) ∧
    (1 ≤ g.m_minWordSize →
      (∀ i, i < g.m_board.length → g.m_visited[i]? = some false) →
      ∃ g1, searchAll g = .ok g1 ∧ specSearch g = some g1) := by
  have hclosed : ∀ w, g.m_dict.IsWordValid w = true → g.m_dict.CanBeWord w = true := by
    intro w hw
    rw [hdict] at hw ⊢
    exact CanBeWord_of_initial_segment file w w hw (List.prefix_refl w)
  have hnil : g.m_dict.CanBeWord [] = true := by
    rw [hdict, CanBeWord_load]
    exact Or.inl rfl
  constructor
  · intro fuel ind str h0 h1 hv hc hcand
    constructor
    · have := FindWordsUtil_abandons g hg hclosed fuel [] ind str h0 h1 hv hc hcand
      rw [withWords_nil] at this
      exact this
    · intro depth j gs hgs
      rw [FindWordsUtil, hgs, if_pos hcand]
  · intro hmin hfalse
    obtain ⟨ws, hrun, hspec⟩ := searchLoop_refines g hg hclosed hnil (by omega) hfalse
      (List.range g.m_board.length) (fun i hi => List.mem_range.mp hi) []
    rw [withWords_nil] at hrun hspec
    refine ⟨_, hrun, ?_⟩
    unfold specSearch
    have hn : (g.m_squareSize * g.m_squareSize).toNat = g.m_board.length := by
      have := hg.board_len
      omega
    rw [hn]
    exact hspec

theorem FindWordsUtil_refines_specified_step_witness :
    ∃ g1, searchAll threeByThreeGame = .ok g1 ∧ specSearch threeByThreeGame = some g1 :=
  (FindWordsUtil_refines_specified_step
    (some ["AB".toList, "BA".toList, "ABCFI".toList, "AEI".toList, "AC".toList,
      "GEC".toList, "GQUI".toList]) threeByThreeGame
    ⟨by decide, by decide, by decide, by decide⟩ rfl).2 (by decide) (by decide)

end Boggle

namespace Boggle

/-! ## The final insertion pass of `std::sort` -/

theorem getD_append_length (A : List Str) (x : Str) (B : List Str) :
    (A ++ x :: B).getD A.length [] = x := by
  induction A with
  | nil => rfl
  | cons a A ih => simpa using ih

theorem set_append_length (A : List Str) (x z : Str) (B : List Str) :
    (A ++ x :: B).set A.length z = A ++ z :: B := by
  induction A with
  | nil => rfl
  | cons a A ih => simp

theorem set_append_length_succ (A : List Str) (x y z : Str) (B : List Str) :
    (A ++ x :: y :: B).set (A.length + 1) z = A ++ x :: z :: B := by
  induction A with
  | nil => rfl
  | cons a A ih => simp

theorem linearInsertLoop_eq (val : Str) (R : List Str) :
    ∀ (junk : Str) (T : List Str),
      linearInsertLoop val (R.reverse ++ junk :: T) R.length = (insertRev val R).reverse ++ T := by
  induction R with
  | nil => intro junk T; rfl
  | cons y R ih =>
    intro junk T
    have hlen : (y :: R).length = R.reverse.length + 1 := by simp
    have ha : (y :: R).reverse ++ junk :: T = R.reverse ++ y :: junk :: T := by simp
    rw [ha, List.length_cons, linearInsertLoop]
    have hget : (R.reverse ++ y :: junk :: T).getD R.length [] = y := by
      have := getD_append_length R.reverse y (junk :: T)
      rwa [List.length_reverse] at this
    rw [hget]
    by_cases hc : byLonger val y = true
    · rw [if_pos hc]
      have hset : (R.reverse ++ y :: junk :: T).set (R.length + 1) y
          = R.reverse ++ y :: y :: T := by
        have := set_append_length_succ R.reverse y junk y T
        rwa [List.length_reverse] at this
      rw [hset, ih y (y :: T)]
      simp [insertRev, hc]
    · rw [if_neg hc]
      have hset : (R.reverse ++ y :: junk :: T).set (R.length + 1) val
          = R.reverse ++ y :: val :: T := by
        have := set_append_length_succ R.reverse y junk val T
        rwa [List.length_reverse] at this
      rw [hset]
      simp [insertRev, hc]

theorem unguardedLinearInsert_eq (P : List Str) (val : Str) (T : List Str) :
    unguardedLinearInsert (P ++ val :: T) P.length = insertRight val P ++ T := by
  unfold unguardedLinearInsert insertRight
  rw [getD_append_length]
  have := linearInsertLoop_eq val P.reverse val T
  rwa [List.reverse_reverse, List.length_reverse] at this

theorem insertRev_perm (val : Str) (R : List Str) : (insertRev val R).Perm (val :: R) := by
  induction R with
  | nil => exact List.Perm.refl _
  | cons x xs ih =>
    unfold insertRev
    split
    · exact (List.Perm.cons x ih).trans (List.Perm.swap val x xs)
    · exact List.Perm.refl _

theorem insertRight_perm (val : Str) (P : List Str) : (insertRight val P).Perm (val :: P) := by
  unfold insertRight
  exact (List.reverse_perm _).trans
    ((insertRev_perm val P.reverse).trans (List.Perm.cons val (List.reverse_perm P)))

theorem insertRight_length (val : Str) (P : List Str) :
    (insertRight val P).length = P.length + 1 := by
  simpa using (insertRight_perm val P).length_eq

theorem insertRev_sorted (val : Str) (R : List Str)
    (h : R.Pairwise (fun a b => ¬ (a.length > b.length))) :
    (insertRev val R).Pairwise (fun a b => ¬ (a.length > b.length)) := by
  induction R with
  | nil => simp [insertRev]
  | cons x xs ih =>
    rw [List.pairwise_cons] at h
    unfold insertRev
    by_cases hc : byLonger val x = true
    · rw [if_pos hc]
      have hlt : val.length > x.length := by simpa [byLonger] using hc
      rw [List.pairwise_cons]
      refine ⟨?_, ih h.2⟩
      intro b hb
      rcases List.mem_cons.mp ((insertRev_perm val xs).subset hb) with rfl | hb
      · omega
      · exact h.1 b hb
    · rw [if_neg hc]
      have hle : ¬ (val.length > x.length) := by simpa [byLonger] using hc
      rw [List.pairwise_cons]
      refine ⟨?_, List.pairwise_cons.mpr h⟩
      intro b hb
      rcases List.mem_cons.mp hb with rfl | hb
      · exact hle
      · have := h.1 b hb
        omega

theorem insertRight_sorted (val : Str) (P : List Str)
    (h : P.Pairwise (fun a b => ¬ (b.length > a.length))) :
    (insertRight val P).Pairwise (fun a b => ¬ (b.length > a.length)) := by
  unfold insertRight
  rw [List.pairwise_reverse]
  apply insertRev_sorted
  rw [List.pairwise_reverse]
  exact h

theorem insertRev_of_all_shorter (val : Str) (R : List Str)
    (h : ∀ x ∈ R, byLonger val x = true) : insertRev val R = R ++ [val] := by
  induction R with
  | nil => rfl
  | cons x xs ih =>
    unfold insertRev
    rw [if_pos (h x (List.mem_cons_self _ _)), ih (fun y hy => h y (List.mem_cons_of_mem _ hy))]
    rfl

theorem insertionStep_eq (p0 : Str) (P : List Str) (val : Str) (T : List Str)
    (h : (p0 :: P).Pairwise (fun a b => ¬ (b.length > a.length))) :
    insertionStep (p0 :: P ++ val :: T) (p0 :: P).length = insertRight val (p0 :: P) ++ T := by
  unfold insertionStep
  have hget : (p0 :: P ++ val :: T).getD (p0 :: P).length [] = val :=
    getD_append_length (p0 :: P) val T
  have h0 : (p0 :: P ++ val :: T).getD 0 [] = p0 := rfl
  rw [hget, h0]
  by_cases hc : byLonger val p0 = true
  · rw [if_pos hc]
    have hlt : val.length > p0.length := by simpa [byLonger] using hc
    have hall : ∀ x ∈ (p0 :: P).reverse, byLonger val x = true := by
      intro x hx
      rw [List.mem_reverse] at hx
      rcases List.mem_cons.mp hx with rfl | hx
      · exact hc
      · have := (List.pairwise_cons.mp h).1 x hx
        simp only [byLonger, decide_eq_true_eq]
        omega
    unfold insertRight
    rw [insertRev_of_all_shorter val _ hall]
    simp
  · rw [if_neg hc]
    exact unguardedLinearInsert_eq (p0 :: P) val T

theorem sortRight_concat (l : List Str) (x : Str) :
    sortRight (l ++ [x]) = insertRight x (sortRight l) := by
  unfold sortRight
  rw [List.foldl_append]
  rfl

theorem foldl_insertRight_perm (l : List Str) :
    ∀ acc : List Str, (l.foldl (fun acc v => insertRight v acc) acc).Perm (acc ++ l) := by
  induction l with
  | nil => intro acc; simp
  | cons x xs ih =>
    intro acc
    rw [List.foldl_cons]
    refine (ih _).trans ?_
    have h1 : (insertRight x acc ++ xs).Perm ((x :: acc) ++ xs) :=
      List.Perm.append_right xs (insertRight_perm x acc)
    refine h1.trans ?_
    have hmid : (acc ++ x :: xs).Perm (x :: (acc ++ xs)) := List.perm_middle
    simpa using hmid.symm

theorem foldl_insertRight_sorted (l : List Str) :
    ∀ acc : List Str, acc.Pairwise (fun a b => ¬ (b.length > a.length)) →
      (l.foldl (fun acc v => insertRight v acc) acc).Pairwise
        (fun a b => ¬ (b.length > a.length)) := by
  induction l with
  | nil => intro acc h; exact h
  | cons x xs ih =>
    intro acc h
    rw [List.foldl_cons]
    exact ih _ (insertRight_sorted x acc h)

theorem sortRight_perm (l : List Str) : (sortRight l).Perm l := by
  simpa [sortRight] using foldl_insertRight_perm l []

theorem sortRight_sorted (l : List Str) :
    (sortRight l).Pairwise (fun a b => ¬ (b.length > a.length)) :=
  foldl_insertRight_sorted l [] List.Pairwise.nil

theorem sortRight_length (l : List Str) : (sortRight l).length = l.length :=
  (sortRight_perm l).length_eq

/-- The first pass of the final insertion sort: after the steps `1 .. k - 1` the first `k`
entries are sorted by `sortRight`, the rest is untouched. -/
theorem insertion_steps_eq (a : List Str) :
    ∀ k, k + 1 ≤ a.length →
      (List.range' 1 k).foldl insertionStep a
        = sortRight (a.take (k + 1)) ++ a.drop (k + 1) := by
  intro k
  induction k with
  | zero =>
    intro h
    cases a with
    | nil => simp at h
    | cons x t => simp [sortRight, insertRight, insertRev]
  | succ k ih =>
    intro h
    have hk : k + 1 < a.length := by omega
    rw [List.range'_concat, List.foldl_append, ih (by omega)]
    simp only [List.foldl_cons, List.foldl_nil, one_mul]
    have hdrop : a.drop (k + 1) = a[k + 1] :: a.drop (k + 1 + 1) :=
      List.drop_eq_getElem_cons hk
    have htake : a.take (k + 1 + 1) = a.take (k + 1) ++ [a[k + 1]] := by
      rw [List.take_succ, List.getElem?_eq_getElem hk]
      rfl
    have hlen : (sortRight (a.take (k + 1))).length = k + 1 := by
      rw [sortRight_length, List.length_take]
      omega
    rw [hdrop, htake, sortRight_concat]
    have hsorted := sortRight_sorted (a.take (k + 1))
    cases hs : sortRight (a.take (k + 1)) with
    | nil => rw [hs] at hlen; simp at hlen
    | cons p0 P =>
      rw [hs] at hlen hsorted
      have hidx : 1 + k = (p0 :: P).length := by rw [hlen]; omega
      rw [hidx]
      exact insertionStep_eq p0 P _ _ hsorted

theorem insertionSort_eq (a : List Str) (n : Nat) (h1 : 1 ≤ n) (hn : n ≤ a.length) :
    insertionSort a n = sortRight (a.take n) ++ a.drop n := by
  unfold insertionSort
  have := insertion_steps_eq a (n - 1) (by omega)
  have hn1 : n - 1 + 1 = n := by omega
  rwa [hn1] at this

theorem unguarded_steps_eq (rest : List Str) :
    ∀ S : List Str,
      (List.range' S.length rest.length).foldl unguardedLinearInsert (S ++ rest)
        = rest.foldl (fun acc v => insertRight v acc) S := by
  induction rest with
  | nil => intro S; simp
  | cons x r ih =>
    intro S
    rw [List.length_cons, List.range'_succ, List.foldl_cons, List.foldl_cons,
      unguardedLinearInsert_eq]
    have := ih (insertRight x S)
    rw [insertRight_length] at this
    exact this

/-- The function `std::__final_insertion_sort` is insertion sort from the left. -/
theorem finalInsertionSort_eq (a : List Str) : finalInsertionSort a = sortRight a := by
  unfold finalInsertionSort
  by_cases h : a.length > 16
  · rw [if_pos h, insertionSort_eq a 16 (by omega) (by omega)]
    unfold unguardedInsertionSort
    have hl : (sortRight (a.take 16)).length = 16 := by
      rw [sortRight_length, List.length_take]
      omega
    have hd : (a.drop 16).length = a.length - 16 := List.length_drop 16 a
    have := unguarded_steps_eq (a.drop 16) (sortRight (a.take 16))
    rw [hl, hd] at this
    rw [this]
    unfold sortRight
    rw [← List.foldl_append, List.take_append_drop]
  · rw [if_neg h]
    cases a with
    | nil => rfl
    | cons x t =>
      rw [insertionSort_eq (x :: t) (x :: t).length (by simp) (Nat.le_refl _)]
      simp

theorem filter_insertRev (val : Str) (n : Nat) (R : List Str) :
    (insertRev val R).filter (fun w => decide (w.length = n))
      = (if val.length = n then [val] else []) ++ R.filter (fun w => decide (w.length = n)) := by
  induction R with
  | nil =>
    by_cases h : val.length = n <;> simp [insertRev, h]
  | cons x xs ih =>
    unfold insertRev
    by_cases hc : byLonger val x = true
    · rw [if_pos hc]
      have hlt : val.length > x.length := by simpa [byLonger] using hc
      by_cases hx : x.length = n
      · have hv : ¬ val.length = n := by omega
        rw [List.filter_cons, List.filter_cons, ih]
        simp [hx, hv]
      · rw [List.filter_cons, List.filter_cons, ih]
        simp [hx]
    · rw [if_neg hc]
      by_cases hv : val.length = n <;> simp [List.filter_cons, hv]

theorem filter_insertRight (val : Str) (n : Nat) (P : List Str) :
    (insertRight val P).filter (fun w => decide (w.length = n))
      = P.filter (fun w => decide (w.length = n)) ++ (if val.length = n then [val] else []) := by
  unfold insertRight
  rw [List.filter_reverse, filter_insertRev, List.reverse_append, List.filter_reverse,
    List.reverse_reverse]
  by_cases h : val.length = n <;> simp [h]

theorem filter_foldl_insertRight (n : Nat) (l : List Str) :
    ∀ acc : List Str,
      (l.foldl (fun acc v => insertRight v acc) acc).filter (fun w => decide (w.length = n))
        = acc.filter (fun w => decide (w.length = n))
          ++ l.filter (fun w => decide (w.length = n)) := by
  induction l with
  | nil => intro acc; simp
  | cons x xs ih =>
    intro acc
    rw [List.foldl_cons, ih, filter_insertRight, List.filter_cons]
    by_cases h : x.length = n <;> simp [h]

/-- Insertion sort from the left keeps entries of equal length in their order. -/
theorem sortRight_stable (l : List Str) : KeepsEqualLengthOrder l (sortRight l) := by
  intro n
  unfold sortRight
  rw [filter_foldl_insertRight]
  simp

end Boggle

namespace Boggle

/-! ## The partitioning pass and the heap pass of `std::sort` only permute -/

theorem set_getD_self (l : List Str) : ∀ i, l.set i (l.getD i []) = l := by
  induction l with
  | nil => intro i; rfl
  | cons y t ih =>
    intro i
    cases i with
    | zero => rfl
    | succ i => simpa using ih i

theorem perm_cons_set (t : List Str) (x : Str) :
    ∀ c, c < t.length → (t.getD c [] :: t.set c x).Perm (x :: t) := by
  induction t with
  | nil => intro c h; simp at h
  | cons z t ih =>
    intro c h
    cases c with
    | zero => exact List.Perm.swap _ _ _
    | succ c =>
      have hc : c < t.length := by simpa using h
      have h1 : ((z :: t).getD (c + 1) [] :: (z :: t).set (c + 1) x)
          = (t.getD c [] :: z :: t.set c x) := by simp
      rw [h1]
      exact (List.Perm.swap _ _ _).trans
        ((List.Perm.cons z (ih c hc)).trans (List.Perm.swap _ _ _))

theorem perm_cons_set_swap (t : List Str) (x y : Str) :
    ∀ h, h < t.length → (x :: t.set h y).Perm (y :: t.set h x) := by
  induction t with
  | nil => intro h hh; simp at hh
  | cons z t ih =>
    intro h hh
    cases h with
    | zero => exact List.Perm.swap _ _ _
    | succ h =>
      have hh' : h < t.length := by simpa using hh
      have h1 : (z :: t).set (h + 1) y = z :: t.set h y := rfl
      have h2 : (z :: t).set (h + 1) x = z :: t.set h x := rfl
      rw [h1, h2]
      exact (List.Perm.swap _ _ _).trans
        ((List.Perm.cons z (ih h hh')).trans (List.Perm.swap _ _ _))

/-- Moving the entry at `c` into the hole at `h` and making `c` the hole: with the hole
filled, the vector is a permutation of what it was. -/
theorem perm_move_hole (l : List Str) (x : Str) :
    ∀ h c, h ≠ c → h < l.length → c < l.length →
      ((l.set h (l.getD c [])).set c x).Perm (l.set h x) := by
  induction l with
  | nil => intro h c _ hh _; simp at hh
  | cons y t ih =>
    intro h c hne hh hc
    cases h with
    | zero =>
      cases c with
      | zero => exact absurd rfl hne
      | succ c =>
        have hc' : c < t.length := by simpa using hc
        have h1 : (((y :: t).set 0 ((y :: t).getD (c + 1) [])).set (c + 1) x)
            = t.getD c [] :: t.set c x := by simp
        have h2 : (y :: t).set 0 x = x :: t := rfl
        rw [h1, h2]
        exact perm_cons_set t x c hc'
    | succ h =>
      have hh' : h < t.length := by simpa using hh
      cases c with
      | zero =>
        have h1 : (((y :: t).set (h + 1) ((y :: t).getD 0 [])).set 0 x)
            = x :: t.set h y := rfl
        have h2 : (y :: t).set (h + 1) x = y :: t.set h x := rfl
        rw [h1, h2]
        exact perm_cons_set_swap t x y h hh'
      | succ c =>
        have hc' : c < t.length := by simpa using hc
        have h1 : (((y :: t).set (h + 1) ((y :: t).getD (c + 1) [])).set (c + 1) x)
            = y :: (t.set h (t.getD c [])).set c x := by simp
        have h2 : (y :: t).set (h + 1) x = y :: t.set h x := rfl
        rw [h1, h2]
        exact List.Perm.cons y (ih h c (fun e => hne (by rw [e])) hh' hc')

theorem iterSwap_perm (v : List Str) (i j : Nat) (hi : i < v.length) (hj : j < v.length) :
    (iterSwap v i j).Perm v := by
  unfold iterSwap
  by_cases hij : i = j
  · subst hij
    rw [set_getD_self, set_getD_self]
  · have := perm_move_hole v (v.getD i []) i j hij hi hj
    rwa [set_getD_self] at this

theorem iterSwap_length (v : List Str) (i j : Nat) : (iterSwap v i j).length = v.length := by
  simp [iterSwap]

theorem moveMedianToFirst_perm (v : List Str) (result a b c : Nat) (hr : result < v.length)
    (ha : a < v.length) (hb : b < v.length) (hc : c < v.length) :
    (moveMedianToFirst v result a b c).Perm v := by
  unfold moveMedianToFirst
  split_ifs <;> first
    | exact iterSwap_perm v result a hr ha
    | exact iterSwap_perm v result b hr hb
    | exact iterSwap_perm v result c hr hc

theorem byLonger_nil_left (w : Str) : byLonger [] w = false := by
  simp [byLonger]

theorem scanUp_le (v : List Str) (pivot : Nat) :
    ∀ k first, first ≤ v.length → scanUp v pivot k first ≤ v.length := by
  intro k
  induction k with
  | zero => intro first h; exact h
  | succ k ih =>
    intro first h
    unfold scanUp
    by_cases hc : byLonger (v.getD first []) (v.getD pivot []) = true
    · rw [if_pos hc]
      apply ih
      by_contra hgt
      have hfl : first = v.length := by omega
      have hnone : v.getD first [] = [] := by
        rw [hfl, List.getD_eq_getElem?_getD, List.getElem?_eq_none (Nat.le_refl _)]
        rfl
      rw [hnone, byLonger_nil_left] at hc
      cases hc
    · rw [if_neg hc]
      exact h

theorem le_scanUp (v : List Str) (pivot : Nat) :
    ∀ k first, first ≤ scanUp v pivot k first := by
  intro k
  induction k with
  | zero => intro first; exact Nat.le_refl _
  | succ k ih =>
    intro first
    unfold scanUp
    split
    · exact Nat.le_trans (Nat.le_succ first) (ih (first + 1))
    · exact Nat.le_refl _

theorem scanDown_le (v : List Str) (pivot : Nat) : ∀ l, scanDown v pivot l ≤ l := by
  intro l
  induction l with
  | zero => exact Nat.le_refl _
  | succ l ih =>
    unfold scanDown
    split
    · exact Nat.le_succ_of_le ih
    · exact Nat.le_refl _

theorem unguardedPartition_perm (pivot : Nat) :
    ∀ (k : Nat) (v : List Str) (first last : Nat), first ≤ v.length → last ≤ v.length →
      (unguardedPartition pivot k v first last).1.Perm v ∧
        (unguardedPartition pivot k v first last).2 ≤ v.length := by
  intro k
  induction k with
  | zero => intro v first last hf _; exact ⟨List.Perm.refl _, hf⟩
  | succ k ih =>
    intro v first last hf hl
    unfold unguardedPartition
    have hf' := scanUp_le v pivot v.length first hf
    have hl' := scanDown_le v pivot (last - 1)
    by_cases hlt : scanUp v pivot v.length first < scanDown v pivot (last - 1)
    · simp only [hlt, if_true]
      have hlin : scanDown v pivot (last - 1) < v.length := by omega
      have hfin : scanUp v pivot v.length first < v.length := by omega
      have hsw := iterSwap_perm v _ _ hfin hlin
      have hlen := iterSwap_length v (scanUp v pivot v.length first)
        (scanDown v pivot (last - 1))
      obtain ⟨hp, hc⟩ := ih (iterSwap v (scanUp v pivot v.length first)
        (scanDown v pivot (last - 1))) (scanUp v pivot v.length first + 1)
        (scanDown v pivot (last - 1)) (by rw [hlen]; omega) (by rw [hlen]; omega)
      exact ⟨hp.trans hsw, by rw [hlen] at hc; exact hc⟩
    · simp only [hlt, if_false]
      exact ⟨List.Perm.refl _, hf'⟩

theorem partitionPivot_perm (v : List Str) (first last : Nat) (h : last - first > 16)
    (hl : last ≤ v.length) :
    (partitionPivot v first last).1.Perm v ∧ (partitionPivot v first last).2 ≤ v.length := by
  unfold partitionPivot
  have hm := moveMedianToFirst_perm v first (first + 1) (first + (last - first) / 2) (last - 1)
    (by omega) (by omega) (by omega) (by omega)
  have hlen := hm.length_eq
  obtain ⟨hp, hc⟩ := unguardedPartition_perm first
    (moveMedianToFirst v first (first + 1) (first + (last - first) / 2) (last - 1)).length
    (moveMedianToFirst v first (first + 1) (first + (last - first) / 2) (last - 1))
    (first + 1) last (by rw [hlen]; omega) (by rw [hlen]; exact hl)
  exact ⟨hp.trans hm, Nat.le_trans hc (Nat.le_of_eq hlen)⟩

end Boggle

namespace Boggle

theorem pushHeap_perm (first topIndex : Nat) (value : Str) :
    ∀ (k : Nat) (v : List Str) (hole : Nat), first + hole < v.length →
      (pushHeap first topIndex value k v hole).Perm (v.set (first + hole) value) := by
  intro k
  induction k with
  | zero => intro v hole _; exact List.Perm.refl _
  | succ k ih =>
    intro v hole h
    unfold pushHeap
    by_cases hc : hole > topIndex ∧
        byLonger (v.getD (first + (hole - 1) / 2) []) value = true
    · rw [if_pos hc]
      have hp : (hole - 1) / 2 < hole := by omega
      have h1 := ih (v.set (first + hole) (v.getD (first + (hole - 1) / 2) []))
        ((hole - 1) / 2) (by rw [List.length_set]; omega)
      exact h1.trans (perm_move_hole v value (first + hole) (first + (hole - 1) / 2)
        (by omega) h (by omega))
    · rw [if_neg hc]

theorem childToMove_bounds (v : List Str) (first hole : Nat) :
    hole < childToMove v first hole ∧ childToMove v first hole ≤ 2 * hole + 2 := by
  unfold childToMove
  split <;> omega

theorem adjustHeapLoop_perm (first len : Nat) :
    ∀ (k : Nat) (v : List Str) (hole : Nat), first + len ≤ v.length → hole < len →
      (adjustHeapLoop first len k v hole).2 < len ∧
      (adjustHeapLoop first len k v hole).1.length = v.length ∧
      ∀ x, ((adjustHeapLoop first len k v hole).1.set
          (first + (adjustHeapLoop first len k v hole).2) x).Perm (v.set (first + hole) x) := by
  intro k
  induction k with
  | zero => intro v hole _ hh; exact ⟨hh, rfl, fun _ => List.Perm.refl _⟩
  | succ k ih =>
    intro v hole hl hh
    unfold adjustHeapLoop
    by_cases hc : hole < (len - 1) / 2
    · rw [if_pos hc]
      obtain ⟨hb1, hb2⟩ := childToMove_bounds v first hole
      have hclen : childToMove v first hole < len := by omega
      obtain ⟨h1, h2, h3⟩ := ih
        (v.set (first + hole) (v.getD (first + childToMove v first hole) []))
        (childToMove v first hole) (by rw [List.length_set]; exact hl) hclen
      refine ⟨h1, by rw [h2, List.length_set], ?_⟩
      intro x
      exact (h3 x).trans (perm_move_hole v x (first + hole) (first + childToMove v first hole)
        (by omega) (by omega) (by omega))
    · rw [if_neg hc]
      exact ⟨hh, rfl, fun _ => List.Perm.refl _⟩

theorem adjustHeap_perm (v : List Str) (first hole len : Nat) (value : Str)
    (hl : first + len ≤ v.length) (hh : hole < len) :
    (adjustHeap v first hole len value).Perm (v.set (first + hole) value) := by
  unfold adjustHeap
  obtain ⟨h1, h2, h3⟩ := adjustHeapLoop_perm first len len v hole hl hh
  by_cases hc : len % 2 = 0 ∧ 2 ≤ len ∧ (adjustHeapLoop first len len v hole).2 = (len - 2) / 2
  · simp only [hc, and_self, if_true]
    have hidx : 2 * ((len - 2) / 2 + 1) - 1 < len := by omega
    have hp := pushHeap_perm first hole value len
      ((adjustHeapLoop first len len v hole).1.set (first + (len - 2) / 2)
        ((adjustHeapLoop first len len v hole).1.getD
          (first + (2 * ((len - 2) / 2 + 1) - 1)) []))
      (2 * ((len - 2) / 2 + 1) - 1) (by rw [List.length_set, h2]; omega)
    have hm := perm_move_hole (adjustHeapLoop first len len v hole).1 value
      (first + (len - 2) / 2) (first + (2 * ((len - 2) / 2 + 1) - 1))
      (by omega) (by rw [h2]; omega) (by rw [h2]; omega)
    have h3' := h3 value
    rw [hc.2.2] at h3'
    exact hp.trans (hm.trans h3')
  · simp only [hc, if_false]
    exact (pushHeap_perm first hole value len _ _ (by rw [h2]; omega)).trans (h3 value)

theorem popHeap_perm (v : List Str) (first last result : Nat) (hfl : first < last)
    (hl : last ≤ v.length) (hr : result < v.length) :
    (popHeap v first last result).Perm v := by
  unfold popHeap
  have h := adjustHeap_perm (v.set result (v.getD first [])) first 0 (last - first)
    (v.getD result []) (by rw [List.length_set]; omega) (by omega)
  rw [Nat.add_zero] at h
  exact h.trans (iterSwap_perm v result first hr (by omega))

theorem foldl_adjustHeap_perm (first len : Nat) (ps : List Nat) :
    ∀ w : List Str, first + len ≤ w.length → (∀ p ∈ ps, p < len) →
      (ps.foldl
        (fun w parent => adjustHeap w first parent len (w.getD (first + parent) [])) w).Perm
        w := by
  induction ps with
  | nil => intro w _ _; exact List.Perm.refl _
  | cons p ps ih =>
    intro w hl hp
    rw [List.foldl_cons]
    have hstep : (adjustHeap w first p len (w.getD (first + p) [])).Perm w := by
      have := adjustHeap_perm w first p len (w.getD (first + p) []) hl
        (hp p (List.mem_cons_self _ _))
      rwa [set_getD_self] at this
    exact (ih _ (by rw [hstep.length_eq]; exact hl)
      (fun q hq => hp q (List.mem_cons_of_mem _ hq))).trans hstep

theorem makeHeap_perm (v : List Str) (first last : Nat) (hl : last ≤ v.length) :
    (makeHeap v first last).Perm v := by
  unfold makeHeap
  split
  · exact List.Perm.refl _
  · apply foldl_adjustHeap_perm
    · omega
    · intro p hp
      rw [List.mem_reverse, List.mem_range] at hp
      omega

theorem sortHeap_perm (first : Nat) :
    ∀ (len : Nat) (v : List Str), first + len ≤ v.length → (sortHeap first len v).Perm v
  | 0, v, _ => List.Perm.refl _
  | 1, v, _ => List.Perm.refl _
  | len + 2, v, h => by
    unfold sortHeap
    have hp := popHeap_perm v first (first + len + 1) (first + len + 1) (by omega) (by omega)
      (by omega)
    exact (sortHeap_perm first (len + 1) _ (by rw [hp.length_eq]; omega)).trans hp

theorem heapSortRange_perm (v : List Str) (first last : Nat) (hfl : first ≤ last)
    (hl : last ≤ v.length) :
    (heapSortRange v first last).Perm v := by
  unfold heapSortRange
  have hm := makeHeap_perm v first last hl
  exact (sortHeap_perm first (last - first) _ (by rw [hm.length_eq]; omega)).trans hm

theorem introsortLoop_perm :
    ∀ (d : Nat) (v : List Str) (first last : Nat), last ≤ v.length →
      (introsortLoop d v first last).Perm v := by
  intro d
  induction d with
  | zero =>
    intro v first last hl
    unfold introsortLoop
    by_cases hbig : last - first > 16
    · rw [if_pos hbig]
      exact heapSortRange_perm v first last (by omega) hl
    · rw [if_neg hbig]
  | succ d ih =>
    intro v first last hl
    unfold introsortLoop
    by_cases hbig : last - first > 16
    · rw [if_pos hbig]
      obtain ⟨hp, hc⟩ := partitionPivot_perm v first last hbig hl
      have h1 := ih (partitionPivot v first last).1 (partitionPivot v first last).2 last
        (by rw [hp.length_eq]; exact hl)
      have h2 := ih (introsortLoop d (partitionPivot v first last).1
        (partitionPivot v first last).2 last) first (partitionPivot v first last).2
        (by rw [h1.length_eq, hp.length_eq]; exact hc)
      exact h2.trans (h1.trans hp)
    · rw [if_neg hbig]

theorem introsortLoop_short (d : Nat) (v : List Str) (first last : Nat)
    (h : ¬ (last - first > 16)) : introsortLoop d v first last = v := by
  cases d with
  | zero => unfold introsortLoop; rw [if_neg h]
  | succ d => unfold introsortLoop; rw [if_neg h]

theorem gnuSortList_eq (v : List Str) :
    gnuSortList v = sortRight (introsortLoop (2 * lg v.length v.length) v 0 v.length) := by
  unfold gnuSortList
  by_cases h : v.length = 0
  · rw [if_pos h]
    have hv : v = [] := List.length_eq_zero.mp h
    subst hv
    rfl
  · rw [if_neg h, finalInsertionSort_eq]

theorem gnuSortList_perm (v : List Str) : (gnuSortList v).Perm v := by
  rw [gnuSortList_eq]
  exact (sortRight_perm _).trans (introsortLoop_perm _ v 0 v.length (Nat.le_refl _))

theorem gnuSortList_sorted (v : List Str) :
    (gnuSortList v).Pairwise (fun a b => ¬ (b.length > a.length)) := by
  rw [gnuSortList_eq]
  exact sortRight_sorted _

theorem gnuSortList_short (v : List Str) (h : v.length ≤ 16) : gnuSortList v = sortRight v := by
  rw [gnuSortList_eq, introsortLoop_short _ v 0 v.length (by omega)]

/-- The `std::sort` of libstdc++ as an instance of the contract `StdSort`. -/
def gnuSort : StdSort :=
  ⟨gnuSortList, gnuSortList_perm, gnuSortList_sorted⟩

end Boggle

namespace Boggle

/-! ## The bounds on the loops of the sort model are never met -/

theorem getD_of_length_le (v : List Str) (i : Nat) (h : v.length ≤ i) : v.getD i [] = [] := by
  rw [List.getD_eq_getElem?_getD, List.getElem?_eq_none h]
  rfl

/-- The scan `scanUp` stops by the end of the vector: a larger bound gives the same
position. -/
theorem scanUp_succ_bound (v : List Str) (pivot : Nat) :
    ∀ k first, v.length ≤ first + k →
      scanUp v pivot (k + 1) first = scanUp v pivot k first := by
  intro k
  induction k with
  | zero =>
    intro first h
    unfold scanUp
    rw [getD_of_length_le v first (by omega), byLonger_nil_left]
    simp [scanUp]
  | succ k ih =>
    intro first h
    conv_lhs => rw [scanUp]
    conv_rhs => rw [scanUp]
    rw [ih (first + 1) (by omega)]

/-- The outer loop of `unguardedPartition` ends within `last - first + 1` rounds: a larger
bound gives the same result. -/
theorem unguardedPartition_succ_bound (pivot : Nat) :
    ∀ (k : Nat) (v : List Str) (first last : Nat), last - first + 1 ≤ k →
      unguardedPartition pivot (k + 1) v first last = unguardedPartition pivot k v first last := by
  intro k
  induction k with
  | zero => intro v first last h; omega
  | succ k ih =>
    intro v first last h
    conv_lhs => rw [unguardedPartition]
    conv_rhs => rw [unguardedPartition]
    have hf := le_scanUp v pivot v.length first
    have hl := scanDown_le v pivot (last - 1)
    by_cases hlt : scanUp v pivot v.length first < scanDown v pivot (last - 1)
    · simp only [hlt, if_true]
      exact ih _ _ _ (by omega)
    · simp only [hlt, if_false]

/-- The loop of `pushHeap` ends within `hole` rounds. -/
theorem pushHeap_succ_bound (first topIndex : Nat) (value : Str) :
    ∀ (k : Nat) (v : List Str) (hole : Nat), hole ≤ k →
      pushHeap first topIndex value (k + 1) v hole = pushHeap first topIndex value k v hole := by
  intro k
  induction k with
  | zero =>
    intro v hole h
    have h0 : hole = 0 := by omega
    subst h0
    simp [pushHeap]
  | succ k ih =>
    intro v hole h
    conv_lhs => rw [pushHeap]
    conv_rhs => rw [pushHeap]
    by_cases hc : hole > topIndex ∧
        byLonger (v.getD (first + (hole - 1) / 2) []) value = true
    · rw [if_pos hc, if_pos hc]
      exact ih _ _ (by omega)
    · rw [if_neg hc, if_neg hc]

/-- The loop of `adjustHeapLoop` ends within `len - hole` rounds. -/
theorem adjustHeapLoop_succ_bound (first len : Nat) :
    ∀ (k : Nat) (v : List Str) (hole : Nat), len ≤ hole + k →
      adjustHeapLoop first len (k + 1) v hole = adjustHeapLoop first len k v hole := by
  intro k
  induction k with
  | zero =>
    intro v hole h
    rw [adjustHeapLoop, adjustHeapLoop, if_neg (by omega)]
  | succ k ih =>
    intro v hole h
    conv_lhs => rw [adjustHeapLoop]
    conv_rhs => rw [adjustHeapLoop]
    by_cases hc : hole < (len - 1) / 2
    · rw [if_pos hc, if_pos hc]
      have := (childToMove_bounds v first hole).1
      exact ih _ _ (by omega)
    · rw [if_neg hc, if_neg hc]

/-- The halving of `lg` ends within `n` rounds. -/
theorem lg_succ_bound : ∀ (k n : Nat), n ≤ k → lg (k + 1) n = lg k n := by
  intro k
  induction k with
  | zero =>
    intro n h
    have h0 : n = 0 := by omega
    subst h0
    simp [lg]
  | succ k ih =>
    intro n h
    conv_lhs => rw [lg]
    conv_rhs => rw [lg]
    by_cases hn : n < 2
    · rw [if_pos hn, if_pos hn]
    · rw [if_neg hn, if_neg hn, ih (n / 2) (by omega)]

theorem lg_eq_log2 : ∀ (k n : Nat), n ≤ k → lg k n = Nat.log2 n := by
  intro k
  induction k with
  | zero =>
    intro n h
    have h0 : n = 0 := by omega
    subst h0
    rw [Nat.log2]
    simp [lg]
  | succ k ih =>
    intro n h
    rw [lg, Nat.log2]
    by_cases hn : n < 2
    · rw [if_pos hn, if_neg (by omega)]
    · rw [if_neg hn, if_pos (by omega), ih (n / 2) (by omega)]

end Boggle

set_option maxRecDepth 100000

namespace Boggle

/-- C17, as the specification states it, fails.  In `wordRichGame` the search discovers 22
words, among them `RATE`, `TARE`, `TEAR` in this order; `SortWords`, with the `std::sort`
of libstdc++, leaves them in the order `TEAR`, `TARE`, `RATE`, and the words of length 3
and 2 change their order as well. -/
theorem SortWords_stability_counterexample :
    ∃ g1, searchAll wordRichGame = .ok g1 ∧
      g1.m_words =
        ["AE".toList, "AR".toList, "ARE".toList, "ART".toList, "AT".toList, "ATE".toList,
          "EAR".toList, "EAT".toList, "ER".toList, "ERA".toList, "ET".toList, "ETA".toList,
          "RAT".toList, "RATE".toList, "RE".toList, "RET".toList, "TA".toList, "TAE".toList,
          "TAR".toList, "TARE".toList, "TEA".toList, "TEAR".toList] ∧
      (SortWords gnuSort g1).m_words =
        ["TEAR".toList, "TARE".toList, "RATE".toList, "ETA".toList, "TEA".toList,
          "TAR".toList, "TAE".toList, "RET".toList, "RAT".toList, "ERA".toList,
          "EAT".toList, "EAR".toList, "ATE".toList, "ART".toList, "ARE".toList,
          "ET".toList, "AE".toList, "ER".toList, "RE".toList, "TA".toList, "AT".toList,
          "AR".toList] ∧
      ¬ KeepsEqualLengthOrder g1.m_words (SortWords gnuSort g1).m_words := by
  refine ⟨_, rfl, rfl, rfl, ?_⟩
  intro h
  have h4 := h 4
  revert h4
  decide

/-- C17, amended.  `SortWords` sorts by descending length: for every input list the output
is a permutation of it ordered by non-increasing length, and nothing but `m_words` is
written; two entries of equal length keep the relative order they had in the input when
`m_words` holds at most 16 entries, where the `std::sort` of libstdc++ runs only its
insertion sort. -/
theorem SortWords_sorts_by_length :
    (∀ g : BoggleGame,
      (SortWords gnuSort g).m_words = gnuSortList g.m_words ∧
      (gnuSortList g.m_words).Perm g.m_words ∧
      (∀ i j : Fin (gnuSortList g.m_words).length, i < j →
        ((gnuSortList g.m_words).get i).length ≥ ((gnuSortList g.m_words).get j).length) ∧
      SortWords gnuSort g = { g with m_words := gnuSortList g.m_words }) ∧
    (∀ g : BoggleGame, g.m_words.length ≤ 16 →
      KeepsEqualLengthOrder g.m_words (SortWords gnuSort g).m_words) := by
  refine ⟨?_, ?_⟩
  · intro g
    refine ⟨rfl, gnuSortList_perm g.m_words, ?_, rfl⟩
    intro i j hij
    have := List.pairwise_iff_get.mp (gnuSortList_sorted g.m_words) i j hij
    exact Nat.le_of_not_lt this
  · intro g h
    show KeepsEqualLengthOrder g.m_words (gnuSortList g.m_words)
    rw [gnuSortList_short g.m_words h]
    exact sortRight_stable g.m_words

theorem SortWords_sorts_by_length_witness :
    (twoWordGame.withWords
        ["AB".toList, "BA".toList, "BA".toList, "AB".toList]).m_words.length ≤ 16 ∧
    KeepsEqualLengthOrder
      (twoWordGame.withWords ["AB".toList, "BA".toList, "BA".toList, "AB".toList]).m_words
      (SortWords gnuSort
        (twoWordGame.withWords ["AB".toList, "BA".toList, "BA".toList, "AB".toList])).m_words :=
  ⟨by decide, SortWords_sorts_by_length.2
    (twoWordGame.withWords ["AB".toList, "BA".toList, "BA".toList, "AB".toList]) (by decide)⟩

end Boggle
